import Mathlib

/-!
# Recurse: HTTP parser, middleware dispatch and header builder

A shallow embedding of `src/recurse.hpp` (class `Recurse`): the Qt string
operations the code calls, the `QHash` containers, `http_parse`,
`http_build_header`, `m_next`, and the `readyRead` callback installed by
`listen`.

Conventions.
* A `QString` is a list of characters.  `QString.size` counts UTF-16 code
  units, as `QString::size()` does.
* A `QHash` is a list of entries with pairwise distinct keys; the order of
  the list stands for the (unspecified) iteration order of the hash.
* `QList::at` with an index out of range has no defined result; the
  functions that call it return `none` there.
* The cursor `current_middleware` is an `int`. `m_next`, `dispatch` and
  `readyRead` count it in the natural numbers; `m_nextInt`, `dispatchInt` and
  `readyReadInt` return `none` where the increment overflows, and agree with
  them wherever it does not (`dispatchInt_sub`, `dispatchInt_eq`).
* The fields of `Request` and `Response` are the ones `recurse.hpp` reads
  and writes; their declarations (`request.hpp`, `response.hpp`) are not
  among the sources, and the default headers and the table of reason
  phrases a `Response` starts with are parameters.
-/

namespace Recurse

/-! ## Strings -/

/-- A `QString`, as the sequence of its characters. -/
abbrev QString := List Char

namespace QString

/-- Number of UTF-16 code units of one character. -/
def units (c : Char) : Nat := if c.toNat < 0x10000 then 1 else 2

/-- The result of `QString::size()`: the number of UTF-16 code units. -/
def size (s : QString) : Nat := (s.map units).sum

/-- The result of `QString::toStdString()`: the bytes of the UTF-8 encoding. -/
def toStdString (s : QString) : List UInt8 := s.flatMap String.utf8EncodeChar

/-- The test `QChar::isSpace()`: the ASCII white space characters, NEL, NBSP
and the Unicode separators (categories Zs, Zl, Zp). -/
def isSpace (c : Char) : Bool :=
  let n := c.toNat
  n == 0x20 || (0x09 ≤ n && n ≤ 0x0d) || n == 0x85 || n == 0xa0 || n == 0x1680
    || (0x2000 ≤ n && n ≤ 0x200a) || n == 0x2028 || n == 0x2029 || n == 0x202f
    || n == 0x205f || n == 0x3000

/-- The result of `QString::trimmed()`: white space removed from both ends. -/
def trimmed (s : QString) : QString :=
  ((s.dropWhile isSpace).reverse.dropWhile isSpace).reverse

/-- The result of `QString::toLower()` on a text of ASCII characters: the
letters `A`..`Z` become `a`..`z`. The case tables Qt applies to the other
characters are not part of the repository; what is stated of lower-cased
names is stated for names of ASCII characters. -/
def toLower (s : QString) : QString := s.map Char.toLower

/-- Puts a character in front of the first piece of a split. -/
def consHead (c : Char) : List QString → List QString
  | [] => [[c]]
  | p :: ps => (c :: p) :: ps

/-- Worker of `split`: `skip` counts the characters of a separator that are
still to be dropped. -/
def splitGo (sep : QString) : Nat → QString → List QString
  | _, [] => [[]]
  | skip + 1, _ :: cs => splitGo sep skip cs
  | 0, c :: cs =>
    if sep.isPrefixOf (c :: cs) ∧ sep ≠ [] then [] :: splitGo sep (sep.length - 1) cs
    else consHead c (splitGo sep 0 cs)

/-- The result of `QString::split(sep)` for a non-empty separator: the pieces
between the occurrences of `sep`, found from left to right, empty pieces
kept. -/
def split (sep : QString) (s : QString) : List QString := splitGo sep 0 s

/-- Value of a decimal digit. -/
def digitVal (c : Char) : Option Nat :=
  if c.isDigit then some (c.toNat - 48) else none

/-- Value of a non-empty string of decimal digits. -/
def parseDigits : QString → Option Nat
  | [] => none
  | c :: cs => (c :: cs).foldlM (fun acc d => (digitVal d).map (fun v => acc * 10 + v)) 0

/-- The result of `QString::toInt()`: surrounding white space is ignored, a
sign is allowed, and the result is 0 when the text is not a decimal number
or does not fit in 32 bits. -/
def toInt (s : QString) : Int :=
  let t := trimmed s
  let sd : Bool × QString :=
    match t with
    | '-' :: r => (true, r)
    | '+' :: r => (false, r)
    | r => (false, r)
  match parseDigits sd.2 with
  | none => 0
  | some n =>
    let v : Int := if sd.1 then -(n : Int) else (n : Int)
    if -2147483648 ≤ v ∧ v ≤ 2147483647 then v else 0

/-- The result of `QString::number(n)` for a number that is not negative. -/
def number (n : Nat) : QString := Nat.toDigits 10 n

end QString

/-- The line terminator `"\r\n"`. -/
def crlf : QString := ['\r', '\n']

/-! ## Hash maps -/

/-- A `QHash<K, V>`: entries with pairwise distinct keys. -/
structure QHash (K V : Type) where
  entries : List (K × V)
  nodup : (entries.map Prod.fst).Nodup

namespace QHash

variable {K V : Type}

/-- The empty hash. -/
def empty : QHash K V := ⟨[], List.nodup_nil⟩

/-- The keys, in iteration order. -/
def keys (m : QHash K V) : List K := m.entries.map Prod.fst

/-- Lookup in a list of entries. -/
def findIn [DecidableEq K] (k : K) : List (K × V) → Option V
  | [] => none
  | (k', v) :: rest => if k' = k then some v else findIn k rest

/-- Lookup of a key. -/
def find? [DecidableEq K] (m : QHash K V) (k : K) : Option V := findIn k m.entries

/-- Replaces the value of `k`, or adds the entry when `k` is new. -/
def setIn [DecidableEq K] (k : K) (v : V) : List (K × V) → List (K × V)
  | [] => [(k, v)]
  | (k', v') :: rest => if k' = k then (k, v) :: rest else (k', v') :: setIn k v rest

/-- The assignment `m[k] = v`. -/
def insert [DecidableEq K] (m : QHash K V) (k : K) (v : V) : QHash K V :=
  ⟨setIn k v m.entries, by
    have key : ∀ l : List (K × V), (setIn k v l).map Prod.fst =
        if k ∈ l.map Prod.fst then l.map Prod.fst else l.map Prod.fst ++ [k] := by
      intro l
      induction l with
      | nil => simp [setIn]
      | cons e rest ih =>
        obtain ⟨k', v'⟩ := e
        by_cases h : k' = k
        · subst h; simp [setIn]
        · have h' : ¬ k = k' := fun e => h e.symm
          simp only [setIn, h, if_false, List.map_cons, ih, List.mem_cons, h', false_or]
          split <;> simp
    rw [key]
    split
    · exact m.nodup
    · rename_i hk
      exact List.Nodup.append m.nodup (List.nodup_singleton k) (by simpa using hk)⟩

/-- The read `m[k]` on a constant hash (`m.value(k)`): the default value when
`k` is absent. -/
def value [DecidableEq K] [Inhabited V] (m : QHash K V) (k : K) : V :=
  (m.find? k).getD default

/-- The read `m[k]` on a hash that is not constant: an absent key is inserted
with the default value. -/
def touch [DecidableEq K] [Inhabited V] (m : QHash K V) (k : K) : QHash K V :=
  match m.find? k with
  | some _ => m
  | none => m.insert k default

end QHash

/-! ## Request and Response -/

/-- Modelled from the spec: the declaration of `Request` (`request.hpp`) is not
part of the sources; the fields are those `recurse.hpp` reads and writes,
with the types of the spec's data model (texts, a map from header name to
value, a counter that starts at 0). -/
structure Request where
  data : QString
  header : QHash QString QString
  body : QString
  method : QString
  proto : QString
  url : QString
  body_length : Nat

/-- A fresh `Request`. -/
def Request.fresh : Request :=
  { data := [], header := QHash.empty, body := [], method := [], proto := [], url := [],
    body_length := 0 }

/-- Modelled from the spec: the declaration of `Response` (`response.hpp`) is
not part of the sources; the fields are those `recurse.hpp` reads and writes,
with the types of the spec's data model (a status code, texts, the user and
the default headers, the table of reason phrases). -/
structure Response where
  status : Nat
  proto : QString
  method : QString
  header : QHash QString QString
  default_headers : QHash QString QString
  body : QString
  http_codes : QHash Nat QString

/-! ## The parser -/

/-- Does the text start with ` HTTP/d.d\r\n`? -/
def protoAt (s : QString) : Bool :=
  match s with
  | c0 :: c1 :: c2 :: c3 :: c4 :: c5 :: a :: c7 :: b :: c9 :: c10 :: _ =>
    [c0, c1, c2, c3, c4, c5] == " HTTP/".toList && a.isDigit && c7 == '.' && b.isDigit
      && c9 == '\r' && c10 == '\n'
  | _ => false

/-- The test `data.contains(httpRx)` for
`httpRx = ^(?=[A-Z]).* \/.* HTTP\/[0-9]\.[0-9]\r\n`: the text starts with a
letter `A`..`Z`, has ` /` somewhere, and ` HTTP/d.d\r\n` somewhere after it
(`.` of `QRegExp` matches every character, line terminators included). -/
def httpRx (s : QString) : Bool :=
  (match s with
    | c :: _ => decide ('A' ≤ c ∧ c ≤ 'Z')
    | [] => false) &&
  s.tails.any (fun t => [' ', '/'].isPrefixOf t && (t.drop 2).tails.any protoAt)

/-- The loop of `http_parse` over the lines `data_list`, from index `i`. -/
def parseLines : Nat → List QString → Bool → Request → Option Request
  | _, [], _, request => some request
  | i, line :: rest, is_body, request =>
    if is_body then
      let body := request.body ++ line
      parseLines (i + 1) rest true
        { request with body := body, body_length := request.body_length + QString.size body }
    else
      let entity_item := QString.split [':'] line
      match entity_item[0]? with
      | none => none
      | some item0 =>
        if entity_item.length < 2 ∧ QString.size item0 < 1 then
          parseLines (i + 1) rest true request
        else if i = 0 ∧ entity_item.length < 2 then
          let first_line := QString.split [' '] item0
          match first_line[0]?, first_line[1]?, first_line[2]? with
          | some m, some u, some p =>
            parseLines (i + 1) rest false
              { request with method := m, url := QString.trimmed u, proto := QString.trimmed p }
          | _, _, _ => none
        else
          match entity_item[1]? with
          | none => none
          | some item1 =>
            parseLines (i + 1) rest false
              { request with
                header := request.header.insert (QString.toLower item0) (QString.trimmed item1) }

/-- The function `Recurse::http_parse`. -/
def http_parse (request : Request) : Option Request :=
  if !httpRx request.data then
    some { request with body := request.body ++ request.data }
  else
    parseLines 0 (QString.split crlf request.data) false request

/-! ## The header builder -/

/-- The function `Recurse::http_build_header`. -/
def http_build_header (response : Response) : QString :=
  let header : QString :=
    response.proto ++ " ".toList ++ QString.number response.status ++ " ".toList
      ++ response.http_codes.value response.status ++ crlf
  let header : QString :=
    response.default_headers.entries.foldl
      (fun header i =>
        if i.1 = "content-length".toList ∧ response.header.value i.1 = [] then
          header ++ (i.1 ++ ": ".toList ++ QString.number (QString.size response.body) ++ crlf)
        else if response.header.value i.1 = [] then
          header ++ (i.1 ++ ": ".toList ++ i.2 ++ crlf)
        else header)
      header
  let header : QString :=
    response.header.entries.foldl
      (fun header j => header ++ (j.1 ++ ": ".toList ++ j.2 ++ crlf)) header
  header ++ crlf

/-! ## Middleware -/

/-- What a handler is given: the request and the response of the connection. -/
structure Exchange where
  request : Request
  response : Response

/-- The behaviour of a handler (`next_f`): it returns, changes the request
and the response, calls its continuation `next`, or branches on what it
sees. -/
inductive next_f where
  | ret : next_f
  | act : (Exchange → Exchange) → next_f → next_f
  | next : next_f → next_f
  | branch : (Exchange → Bool) → next_f → next_f → next_f

/-- What is recorded of a dispatch: handler `i` is invoked, handler `i`
calls its continuation. -/
inductive Event where
  | enter : Nat → Event
  | calls : Nat → Event
  deriving DecidableEq, Repr

/-- The state one dispatch works on: the cursor `current_middleware`, the
request and response of the connection, and the record of the dispatch. The
cursor is a natural number; `m_next` lets it grow without bound, `m_nextInt`
gives it the range of the `int` of the source. -/
structure Run where
  current_middleware : Nat
  exchange : Exchange
  trace : List Event

/-- Runs the body of handler number `self` with the continuation `next`. -/
def runHandler (next : Run → Option Run) (self : Nat) : next_f → Run → Option Run
  | .ret, w => some w
  | .act f k, w => runHandler next self k { w with exchange := f w.exchange }
  | .next k, w =>
    match next { w with trace := w.trace ++ [Event.calls self] } with
    | none => none
    | some w1 => runHandler next self k w1
  | .branch c t e, w =>
    if c w.exchange then runHandler next self t w else runHandler next self e w

/-- The function `Recurse::m_next`; `fuel` bounds the depth of nested
handler invocations, and `none` is returned when it is used up. -/
def m_next (m_middleware : List next_f) : Nat → Run → Option Run
  | 0, w =>
    if w.current_middleware + 1 ≥ m_middleware.length then
      some { w with current_middleware := w.current_middleware + 1 }
    else none
  | fuel + 1, w =>
    if w.current_middleware + 1 ≥ m_middleware.length then
      some { w with current_middleware := w.current_middleware + 1 }
    else
      match m_middleware[w.current_middleware + 1]? with
      | none => none
      | some h =>
        runHandler (m_next m_middleware fuel) (w.current_middleware + 1) h
          { w with current_middleware := w.current_middleware + 1,
                   trace := w.trace ++ [Event.enter (w.current_middleware + 1)] }

/-- The dispatch of `readyRead`: the handler at the cursor is invoked when
the registry is not empty. -/
def dispatch (m_middleware : List next_f) (current_middleware : Nat) (exchange : Exchange) :
    Option Run :=
  if m_middleware.length > 0 then
    match m_middleware[current_middleware]? with
    | none => none
    | some h =>
      runHandler (m_next m_middleware m_middleware.length) current_middleware h
        { current_middleware := current_middleware, exchange := exchange,
          trace := [Event.enter current_middleware] }
  else some { current_middleware := current_middleware, exchange := exchange, trace := [] }

/-- The handlers invoked, in the order of their invocation. -/
def invoked (trace : List Event) : List Nat :=
  trace.filterMap (fun e => match e with
    | .enter i => some i
    | .calls _ => none)

/-! ## Connections and the `readyRead` callback -/

/-- A `Client`: the request and the response of one connection (the socket
is represented by the writes recorded in `Server.written`). -/
structure Client where
  request : Request
  response : Response

/-- The members of class `Recurse`, the tables a new `Response` starts with,
and what was observed: the payloads written to sockets and the record of the
dispatches. -/
structure Server where
  m_middleware : List next_f
  current_middleware : Nat
  connections : List (Int × Client)
  default_headers : QHash QString QString
  http_codes : QHash Nat QString
  written : List (Int × QString)
  trace : List Event

/-- A fresh `Response` with the given tables. -/
def Response.fresh (default_headers : QHash QString QString) (http_codes : QHash Nat QString) :
    Response :=
  { status := 0, proto := [], method := [], header := QHash.empty,
    default_headers := default_headers, body := [], http_codes := http_codes }

/-- The function `Recurse::use`. -/
def use (s : Server) (f : next_f) : Server :=
  { s with m_middleware := s.m_middleware ++ [f] }

/-- Lookup of a connection. -/
def Server.client? (s : Server) (socket_id : Int) : Option Client :=
  QHash.findIn socket_id s.connections

/-- The `newConnection` callback: `connections[socket_id]` becomes a fresh
client. -/
def newConnection (s : Server) (socket_id : Int) : Server :=
  let client : Client :=
    { request := Request.fresh, response := Response.fresh s.default_headers s.http_codes }
  { s with connections := QHash.setIn socket_id client s.connections }

/-- The test that ends the wait for more bytes:
`body_length >= header["content-length"].toInt()`. -/
def complete (request : Request) : Bool :=
  !decide ((request.body_length : Int) <
    QString.toInt (request.header.value "content-length".toList))

/-- What `readyRead` does to the request before the test: the bytes are
appended, `http_parse` runs, and the read of `header["content-length"]`
inserts the key when it is absent. -/
def receive (request : Request) (bytes : QString) : Option Request :=
  match http_parse { request with data := request.data ++ bytes } with
  | none => none
  | some parsed => some { parsed with header := parsed.header.touch "content-length".toList }

/-- What `readyRead` does once the request is complete: the handlers run,
the cursor is reset, method and protocol are copied, the status defaults to
200, and the payload is built. The result is the final response and the
payload `response_data`, with the record of the dispatch. -/
def respond (m_middleware : List next_f) (current_middleware : Nat) (client : Client) :
    Option (Response × QString × List Event) :=
  match dispatch m_middleware current_middleware ⟨client.request, client.response⟩ with
  | none => none
  | some run =>
    let response : Response :=
      { run.exchange.response with
        method := run.exchange.request.method, proto := run.exchange.request.proto }
    let response : Response :=
      if response.status = 0 then { response with status := 200 } else response
    let header := http_build_header response
    let response_data := header ++ response.body
    some (response, response_data, run.trace)

/-- The `readyRead` callback of the connection `socket_id`, with the bytes
read from the socket. -/
def readyRead (s : Server) (socket_id : Int) (bytes : QString) : Option Server :=
  match s.client? socket_id with
  | none => none
  | some client =>
    match receive client.request bytes with
    | none => none
    | some request =>
      let client : Client := { client with request := request }
      if !complete request then
        some { s with connections := QHash.setIn socket_id client s.connections }
      else
        match respond s.m_middleware s.current_middleware client with
        | none => none
        | some (_, response_data, trace) =>
          some { s with
            current_middleware := 0,
            connections := s.connections.filter (fun e => e.1 ≠ socket_id),
            written := s.written ++ [(socket_id, response_data)],
            trace := s.trace ++ trace }

/-- The bytes `readyRead` hands to the socket for the payload
`response_data`: the call is
`socket->write(response_data.toStdString().c_str(), response_data.size())`,
so they are the first `size()` bytes of the UTF-8 encoding. -/
def socketWrite (response_data : QString) : List UInt8 :=
  (QString.toStdString response_data).take (QString.size response_data)

/-- A peer-closed event of the connection `socket_id`: `listen` connects a
slot to `readyRead` only, none to `disconnected`, so no code of the class
runs and its members stay as they are. -/
def peerClosed (s : Server) (_socket_id : Int) : Server := s

/-- The events the server reacts to. -/
inductive Input where
  | connect : Int → Input
  | bytes : Int → QString → Input
  | closed : Int → Input

/-- The reaction to one event. -/
def step (s : Server) : Input → Option Server
  | .connect socket_id => some (newConnection s socket_id)
  | .bytes socket_id chunk => readyRead s socket_id chunk
  | .closed socket_id => some (peerClosed s socket_id)

/-- The reaction to a sequence of events, in the order of their delivery. -/
def steps (s : Server) : List Input → Option Server
  | [] => some s
  | input :: rest =>
    match step s input with
    | none => none
    | some s1 => steps s1 rest

/-! ## The cursor as an `int` -/

/-- The largest value of an `int`. -/
def INT_MAX : Nat := 2147483647

/-- The function `Recurse::m_next` with the range of the `int`
`current_middleware`: `++current_middleware` on a cursor that holds `INT_MAX`
overflows and has no defined result (`none`); otherwise as `m_next`. The
member is incremented by every call, also when the cursor is past the end of
the registry. -/
def m_nextInt (m_middleware : List next_f) : Nat → Run → Option Run
  | 0, w =>
    if w.current_middleware ≥ INT_MAX then none
    else if w.current_middleware + 1 ≥ m_middleware.length then
      some { w with current_middleware := w.current_middleware + 1 }
    else none
  | fuel + 1, w =>
    if w.current_middleware ≥ INT_MAX then none
    else if w.current_middleware + 1 ≥ m_middleware.length then
      some { w with current_middleware := w.current_middleware + 1 }
    else
      match m_middleware[w.current_middleware + 1]? with
      | none => none
      | some h =>
        runHandler (m_nextInt m_middleware fuel) (w.current_middleware + 1) h
          { w with current_middleware := w.current_middleware + 1,
                   trace := w.trace ++ [Event.enter (w.current_middleware + 1)] }

/-- The dispatch of `readyRead` with the continuation `m_nextInt`. -/
def dispatchInt (m_middleware : List next_f) (current_middleware : Nat) (exchange : Exchange) :
    Option Run :=
  if m_middleware.length > 0 then
    match m_middleware[current_middleware]? with
    | none => none
    | some h =>
      runHandler (m_nextInt m_middleware m_middleware.length) current_middleware h
        { current_middleware := current_middleware, exchange := exchange,
          trace := [Event.enter current_middleware] }
  else some { current_middleware := current_middleware, exchange := exchange, trace := [] }

/-- What `readyRead` does once the request is complete, with the dispatch
`dispatchInt`: the handlers run, the cursor is reset, method and protocol are
copied, the status defaults to 200, and the payload is built. -/
def respondInt (m_middleware : List next_f) (current_middleware : Nat) (client : Client) :
    Option (Response × QString × List Event) :=
  match dispatchInt m_middleware current_middleware ⟨client.request, client.response⟩ with
  | none => none
  | some run =>
    let response : Response :=
      { run.exchange.response with
        method := run.exchange.request.method, proto := run.exchange.request.proto }
    let response : Response :=
      if response.status = 0 then { response with status := 200 } else response
    let header := http_build_header response
    let response_data := header ++ response.body
    some (response, response_data, run.trace)

/-- The `readyRead` callback of the connection `socket_id`, with the
dispatch `dispatchInt`. -/
def readyReadInt (s : Server) (socket_id : Int) (bytes : QString) : Option Server :=
  match s.client? socket_id with
  | none => none
  | some client =>
    match receive client.request bytes with
    | none => none
    | some request =>
      let client : Client := { client with request := request }
      if !complete request then
        some { s with connections := QHash.setIn socket_id client s.connections }
      else
        match respondInt s.m_middleware s.current_middleware client with
        | none => none
        | some (_, response_data, trace) =>
          some { s with
            current_middleware := 0,
            connections := s.connections.filter (fun e => e.1 ≠ socket_id),
            written := s.written ++ [(socket_id, response_data)],
            trace := s.trace ++ trace }

/-- The reaction to one event, with `readyReadInt`. -/
def stepInt (s : Server) : Input → Option Server
  | .connect socket_id => some (newConnection s socket_id)
  | .bytes socket_id chunk => readyReadInt s socket_id chunk
  | .closed socket_id => some (peerClosed s socket_id)

/-- The reaction to a sequence of events, with `readyReadInt`. -/
def stepsInt (s : Server) : List Input → Option Server
  | [] => some s
  | input :: rest =>
    match stepInt s input with
    | none => none
    | some s1 => stepsInt s1 rest

/-- The read `m[k]` through a constant reference, with the hash after the
read: the constant `operator[]` inserts nothing. -/
def QHash.readConst {K V : Type} [DecidableEq K] [Inhabited V] (m : QHash K V) (k : K) :
    QHash K V × V :=
  (m, m.value k)

/-- A call of `http_build_header` with the response after the call: the
response is a constant reference, every access to it is a read. -/
def http_build_header_call (response : Response) : Response × QString :=
  let header : QString :=
    response.proto ++ " ".toList ++ QString.number response.status ++ " ".toList
      ++ response.http_codes.value response.status ++ crlf
  let st : Response × QString :=
    response.default_headers.entries.foldl
      (fun st i =>
        let rd := st.1.header.readConst i.1
        let after : Response := { st.1 with header := rd.1 }
        if i.1 = "content-length".toList ∧ rd.2 = [] then
          (after, st.2 ++ (i.1 ++ ": ".toList ++ QString.number (QString.size after.body) ++ crlf))
        else if rd.2 = [] then
          (after, st.2 ++ (i.1 ++ ": ".toList ++ i.2 ++ crlf))
        else (after, st.2))
      (response, header)
  let st : Response × QString :=
    st.1.header.entries.foldl
      (fun st j => (st.1, st.2 ++ (j.1 ++ ": ".toList ++ j.2 ++ crlf))) st
  (st.1, st.2 ++ crlf)


/-! # Specification vocabulary -/

/-- What the loop of `http_parse` does with one line of the body. -/
def addBodyLine (request : Request) (line : QString) : Request :=
  { request with
    body := request.body ++ line,
    body_length := request.body_length + QString.size (request.body ++ line) }


/-- The request line `M SP U SP HTTP/a.b`, without its terminator. -/
def requestLine (M U : QString) (a b : Char) : QString :=
  M ++ ' ' :: (U ++ ' ' :: ("HTTP/".toList ++ [a, '.', b]))

/-- A header line `name: value`, without its terminator. -/
def headerLine (h : QString × QString) : QString := h.1 ++ ':' :: ' ' :: h.2

/-- The header block: every header line with its terminator. -/
def headerBlock (hs : List (QString × QString)) : QString :=
  (hs.map (fun h => headerLine h ++ crlf)).flatten

/-- The well-formed requests: the method starts with a letter `A`..`Z`, the
URL with `/`, the request line has no colon, exactly two spaces and no line
terminator, the protocol digits are digits, header names are not empty, and
no name, value or body contains a colon (names, values) or a line
terminator. -/
structure WellFormed (M U : QString) (a b : Char) (hs : List (QString × QString))
    (B : QString) : Prop where
  method_upper : ∃ c rest, M = c :: rest ∧ 'A' ≤ c ∧ c ≤ 'Z'
  url_slash : ∃ rest, U = '/' :: rest
  no_colon : ':' ∉ requestLine M U a b
  two_spaces : (requestLine M U a b).count ' ' = 2
  one_line : ¬ crlf <:+: requestLine M U a b
  digits : a.isDigit = true ∧ b.isDigit = true
  names : ∀ h ∈ hs, h.1 ≠ [] ∧ ':' ∉ h.1 ∧ ¬ crlf <:+: h.1
  values : ∀ h ∈ hs, ':' ∉ h.2 ∧ ¬ crlf <:+: h.2
  body : ¬ crlf <:+: B

/-- One header line as the builder writes it: `name: value CRLF`. -/
def headerField (f : QString × QString) : QString := f.1 ++ (": ".toList ++ (f.2 ++ crlf))

/-- The status line `<proto> SP <status> SP <reason> CRLF`. -/
def statusLine (response : Response) : QString :=
  response.proto ++ " ".toList ++ QString.number response.status ++ " ".toList
    ++ response.http_codes.value response.status ++ crlf

/-- The status line without its terminator. -/
def statusText (response : Response) : QString :=
  response.proto ++ ' ' :: (QString.number response.status ++
    ' ' :: response.http_codes.value response.status)

/-- The default header fields the builder writes: those whose user value is
empty, `content-length` with the size of the body. -/
def defaultFields (response : Response) : List (QString × QString) :=
  response.default_headers.entries.filterMap (fun i =>
    if response.header.value i.1 = [] then
      some (i.1, if i.1 = "content-length".toList then
        QString.number (QString.size response.body) else i.2)
    else none)

/-- The header fields the builder writes: the default ones, then the user
ones. -/
def emittedFields (response : Response) : List (QString × QString) :=
  defaultFields response ++ response.header.entries

/-- The header lines of the built text. -/
def emittedLines (response : Response) : List QString :=
  (emittedFields response).map headerField

/-- A reason-phrase table with the single entry `200 -> OK`. -/
def codesOK : QHash Nat QString := ⟨[(200, "OK".toList)], by simp⟩

/-- Default headers `content-length: 0` and `content-type: text/plain`. -/
def defaultsPlain : QHash QString QString :=
  ⟨[("content-length".toList, "0".toList), ("content-type".toList, "text/plain".toList)],
    by decide⟩

/-- A response `HTTP/1.1 200` with the body `hello` and no user header. -/
def responseHello : Response :=
  { status := 200, proto := "HTTP/1.1".toList, method := "GET".toList, header := QHash.empty,
    default_headers := defaultsPlain, body := "hello".toList, http_codes := codesOK }

/-- A response whose body is the single character U+00E9. -/
def responseAccent : Response := { responseHello with body := "\u00e9".toList }

/-- A response whose user header `content-type` holds the empty value. -/
def responseEmptyType : Response :=
  { responseHello with header := ⟨[("content-type".toList, [])], by simp⟩ }

/-- A response whose user header `content-type` is `text/html`. -/
def responseHtml : Response :=
  { responseHello with header := ⟨[("content-type".toList, "text/html".toList)], by simp⟩ }

/-- A response with the status 999, which the table does not hold. -/
def response999 : Response := { responseHello with status := 999 }

/-- The largest number of calls of the continuation on a path through the
body of a handler. -/
def next_f.maxCalls : next_f → Nat
  | .ret => 0
  | .act _ k => k.maxCalls
  | .next k => k.maxCalls + 1
  | .branch _ t e => max t.maxCalls e.maxCalls

/-- The smallest number of calls of the continuation on a path through the
body of a handler. -/
def next_f.minCalls : next_f → Nat
  | .ret => 0
  | .act _ k => k.minCalls
  | .next k => k.minCalls + 1
  | .branch _ t e => min t.minCalls e.minCalls

/-- The handler calls its continuation exactly once, whatever it sees. -/
def next_f.callsOnce (h : next_f) : Prop := h.minCalls = 1 ∧ h.maxCalls = 1

/-- The handler never calls its continuation. -/
def next_f.neverCalls (h : next_f) : Prop := h.maxCalls = 0

/-- An exchange to run examples on: a fresh request and the response
`responseHello`. -/
def exchangeHello : Exchange := { request := Request.fresh, response := responseHello }

/-- A server with an empty registry and no connection. -/
def serverEmpty : Server :=
  { m_middleware := [], current_middleware := 0, connections := [],
    default_headers := defaultsPlain, http_codes := codesOK, written := [], trace := [] }

/-- The request text `GET /foo HTTP/1.1 CRLF Host: x CRLF CRLF`. -/
def textFoo : QString := "GET /foo HTTP/1.1\r\nHost: x\r\n\r\n".toList

/-- The request of a fresh connection after the event that delivers
`textFoo`. -/
def requestFoo : Request := (receive Request.fresh textFoo).getD Request.fresh

/-- The byte-arrival events of one connection, one after the other: every
chunk is handed to `readyRead`. -/
def feed (s : Server) (socket_id : Int) : List QString → Option Server
  | [] => some s
  | bytes :: rest =>
    match readyRead s socket_id bytes with
    | none => none
    | some s1 => feed s1 socket_id rest

/-- A text that is a request line and complete header lines, without a blank
line, and whose last `content-length` line has a positive value. -/
def HeaderOnly (text : QString) : Prop :=
  ∃ (M U : QString) (a b : Char) (hs : List (QString × QString)) (name v : QString),
    WellFormed M U a b hs [] ∧
    text = requestLine M U a b ++ (crlf ++ headerBlock hs) ∧
    hs.reverse.find? (fun h => decide (QString.toLower h.1 = "content-length".toList))
      = some (name, v) ∧
    0 < QString.toInt (QString.trimmed v)

/-- Two chunks of header lines: the request line with `Content-Length: 5`,
then `Host: x`; no blank line. -/
def chunksHeaders : List QString :=
  ["POST /x HTTP/1.1\r\nContent-Length: 5\r\n".toList, "Host: x\r\n".toList]

/-- The sum over `j = 1..k` of the size of `l1 ++ ... ++ lj`. -/
def prefixSizes (ls : List QString) : Nat :=
  ((List.range ls.length).map (fun j => QString.size (ls.take (j + 1)).flatten)).sum

/-- The sum over `i = 1..k` of `(k - i + 1) * |li|` (with `i` counted from 0:
of `(k - i) * |l(i+1)|`). -/
def weightedSizes (ls : List QString) : Nat :=
  ((List.range ls.length).map (fun i => (ls.length - i) * QString.size (ls.getD i []))).sum

/-- The lines before the first empty line. -/
def linesBefore (lines : List QString) : List QString :=
  lines.takeWhile (fun l => decide (l ≠ []))

/-- The lines after the first empty line. -/
def linesAfter (lines : List QString) : List QString :=
  (lines.dropWhile (fun l => decide (l ≠ []))).drop 1

/-- The server `serverEmpty` after a connection 7 was accepted and sent the
request line with `Content-Length: 5`, without a blank line. -/
def serverWaiting : Server :=
  ((readyRead (newConnection serverEmpty 7) 7
    "POST /x HTTP/1.1\r\nContent-Length: 5\r\n".toList).getD serverEmpty)

/-- A server with two handlers: the first calls its continuation twice, the
second returns at once. -/
def serverTwo : Server :=
  { serverEmpty with m_middleware := [next_f.next (.next .ret), .ret] }

/-- Feeds chunks to a request one at a time: every chunk is appended to the
raw text, then `http_parse` is called. -/
def feedParse (request : Request) : List QString → Option Request
  | [] => some request
  | chunk :: rest =>
    match http_parse { request with data := request.data ++ chunk } with
    | none => none
    | some r1 => feedParse r1 rest

/-- The request text `POST /x HTTP/1.1`, `content-length: 5`, body `hello`. -/
def textHello : QString := "POST /x HTTP/1.1\r\ncontent-length: 5\r\n\r\nhello".toList

/-- A server whose only handler sets the body of the response to the single
character U+00E9. -/
def serverAccent : Server :=
  { serverEmpty with
    m_middleware := [next_f.act
      (fun x => { x with response := { x.response with body := "\u00e9".toList } }) .ret] }

/-- A request text with the three body lines `ab`, `cde` and `f`. -/
def textLines : QString := "POST /x HTTP/1.1\r\n\r\nab\r\ncde\r\nf".toList

/-- A text that passes the request-line check and whose line 0 is `G`. -/
def textShort : QString := "G\r\nX /a HTTP/1.1\r\n\r\nbody".toList

/-- The header name a line of the built text shows: the text before its
first colon. -/
def lineName (line : QString) : QString := line.takeWhile (fun c => decide (c ≠ ':'))

/-- The header lines of a built text: its lines after the status line, up to
the blank line. -/
def headerLinesOf (text : QString) : List QString :=
  ((QString.split crlf text).drop 1).takeWhile (fun l => decide (l ≠ []))

/-- A response whose user header `x-a` holds a value with a line terminator
in it. -/
def responseInject : Response :=
  { responseHello with header := ⟨[("x-a".toList, "b\r\nx-a: c".toList)], by simp⟩ }

/-- A response with the user headers `x` and `x: y`. -/
def responseColon : Response :=
  { responseHello with
    header := ⟨[("x".toList, "1".toList), ("x: y".toList, "2".toList)], by decide⟩ }

/-- The calls of the continuation the handlers from index `c` on can make:
the sum of their `maxCalls`. -/
def maxCallsFrom (m_middleware : List next_f) (c : Nat) : Nat :=
  ((m_middleware.drop c).map next_f.maxCalls).sum

/-- The handler that calls its continuation `k` times and returns. -/
def nextTimes : Nat → next_f
  | 0 => .ret
  | k + 1 => .next (nextTimes k)

/-- A server whose only handler calls its continuation 2147483648 times. -/
def serverLoop : Server :=
  { serverEmpty with m_middleware := [nextTimes 2147483648] }

/-! # Lemmas -/

namespace QString

theorem size_nil : size [] = 0 := rfl

theorem size_append (a b : QString) : size (a ++ b) = size a + size b := by
  simp [size]

theorem units_pos (c : Char) : 0 < units c := by
  unfold units; split <;> omega

theorem size_pos {s : QString} (h : s ≠ []) : 0 < size s := by
  cases s with
  | nil => exact absurd rfl h
  | cons c cs =>
    have := units_pos c
    simp only [size, List.map_cons, List.sum_cons]
    omega

theorem split_single_append (c : Char) (p rest : QString) (h : c ∉ p) :
    split [c] (p ++ c :: rest) = p :: split [c] rest := by
  induction p with
  | nil => simp [split, splitGo, List.isPrefixOf]
  | cons d p ih =>
    have hd : ¬ c = d := fun e => h (by simp [e])
    have hp : c ∉ p := fun e => h (by simp [e])
    have := ih hp
    simp only [split] at this
    simp [split, splitGo, List.isPrefixOf, hd, this, consHead]

theorem split_single_self (c : Char) (p : QString) (h : c ∉ p) : split [c] p = [p] := by
  induction p with
  | nil => simp [split, splitGo]
  | cons d p ih =>
    have hd : ¬ c = d := fun e => h (by simp [e])
    have hp : c ∉ p := fun e => h (by simp [e])
    have := ih hp
    simp only [split] at this
    simp [split, splitGo, List.isPrefixOf, hd, this, consHead]

end QString

theorem not_crlf_infix_cons {d : Char} {p : QString} (h : ¬ crlf <:+: d :: p) :
    ¬ crlf <:+: p := fun e => h (List.IsInfix.trans e (List.infix_cons (List.infix_refl p)))

theorem split_crlf_append (p rest : QString) (h : ¬ crlf <:+: p) :
    QString.split crlf (p ++ (crlf ++ rest)) = p :: QString.split crlf rest := by
  induction p with
  | nil => simp [QString.split, QString.splitGo, List.isPrefixOf, crlf]
  | cons d p ih =>
    have := ih (not_crlf_infix_cons h)
    simp only [QString.split] at this
    have hpre : ¬ crlf <+: d :: (p ++ (crlf ++ rest)) := by
      intro e
      rw [← List.isPrefixOf_iff_prefix] at e
      cases p with
      | nil => simp [crlf, List.isPrefixOf] at e
      | cons d2 p2 =>
        simp only [crlf, List.isPrefixOf, List.cons_append, Bool.and_eq_true, beq_iff_eq,
          Bool.and_true] at e
        apply h
        rw [← e.1, ← e.2]
        exact ⟨[], p2, by simp [crlf]⟩
    simp only [List.cons_append, QString.split, QString.splitGo]
    simp [hpre, this, QString.consHead]

namespace QString

theorem isSpace_of_isDigit {c : Char} (h : c.isDigit = true) : isSpace c = false := by
  simp only [Char.isDigit, Bool.and_eq_true, decide_eq_true_eq] at h
  have h1 : 48 ≤ c.toNat := by
    have := h.1
    rw [ge_iff_le, UInt32.le_def] at this
    exact this
  have h2 : c.toNat ≤ 57 := by
    have := h.2
    rw [UInt32.le_def] at this
    exact this
  simp only [isSpace, Bool.or_eq_false_iff, beq_eq_false_iff_ne, ne_eq, Bool.and_eq_false_iff,
    decide_eq_false_iff_not, not_le]
  omega

theorem trimmed_space_cons (v : QString) : trimmed (' ' :: v) = trimmed v := by
  have : isSpace ' ' = true := by decide
  simp [trimmed, List.dropWhile, this]

theorem trimmed_proto (a : Char) {b : Char} (hb : b.isDigit = true) :
    trimmed ("HTTP/".toList ++ [a, '.', b]) = "HTTP/".toList ++ [a, '.', b] := by
  have h1 : isSpace 'H' = false := by decide
  have h2 := isSpace_of_isDigit hb
  simp [trimmed, List.dropWhile, h1, h2]

end QString

namespace QHash

variable {K V : Type}

theorem findIn_setIn [DecidableEq K] (k k' : K) (v : V) (l : List (K × V)) :
    findIn k' (setIn k v l) = if k = k' then some v else findIn k' l := by
  induction l with
  | nil => simp [setIn, findIn]
  | cons e rest ih =>
    obtain ⟨k0, v0⟩ := e
    by_cases h : k0 = k
    · subst h
      by_cases h' : k0 = k' <;> simp [setIn, findIn, h']
    · simp only [setIn, h, if_false, findIn, ih]
      by_cases h'' : k0 = k'
      · have : ¬ k = k' := fun e => h (h''.trans e.symm)
        simp [h'', this]
      · simp [h'']

theorem find?_insert [DecidableEq K] (m : QHash K V) (k k' : K) (v : V) :
    (m.insert k v).find? k' = if k = k' then some v else m.find? k' :=
  findIn_setIn k k' v m.entries

theorem find?_foldl_insert [DecidableEq K] {H : Type} (f : H → K) (g : H → V) (hs : List H)
    (m : QHash K V) (k : K) :
    (hs.foldl (fun m h => m.insert (f h) (g h)) m).find? k =
      match hs.reverse.find? (fun h => decide (f h = k)) with
      | some h => some (g h)
      | none => m.find? k := by
  induction hs generalizing m with
  | nil => simp
  | cons h hs ih =>
    rw [List.foldl_cons, ih, List.reverse_cons, List.find?_append]
    cases hfind : List.find? (fun h => decide (f h = k)) hs.reverse with
    | some h' => simp
    | none =>
      by_cases hk : f h = k <;> simp [find?_insert, hk]

end QHash


/-! ## Lemmas on `http_parse` -/

theorem parseLines_body (i : Nat) (lines : List QString) (r : Request) :
    parseLines i lines true r = some (lines.foldl addBodyLine r) := by
  induction lines generalizing i r with
  | nil => simp [parseLines]
  | cons line rest ih => simp [parseLines, ih, addBodyLine]

theorem parseLines_blank (i : Nat) (rest : List QString) (r : Request) :
    parseLines i ([] :: rest) false r = parseLines (i + 1) rest true r := by
  simp [parseLines, QString.split, QString.splitGo, QString.size]

theorem parseLines_header (i : Nat) (h : QString × QString) (rest : List QString) (r : Request)
    (h1 : ':' ∉ h.1) (h2 : ':' ∉ h.2) :
    parseLines i (headerLine h :: rest) false r =
      parseLines (i + 1) rest false
        { r with header := r.header.insert (QString.toLower h.1) (QString.trimmed h.2) } := by
  have hs : QString.split [':'] (headerLine h) = [h.1, ' ' :: h.2] := by
    rw [headerLine, QString.split_single_append _ _ _ h1, QString.split_single_self]
    simpa using h2
  simp [parseLines, hs, QString.trimmed_space_cons]

theorem parseLines_headers (i : Nat) (hs : List (QString × QString)) (rest : List QString)
    (r : Request) (h1 : ∀ h ∈ hs, ':' ∉ h.1) (h2 : ∀ h ∈ hs, ':' ∉ h.2) :
    parseLines i (hs.map headerLine ++ rest) false r =
      parseLines (i + hs.length) rest false
        { r with header :=
            (hs.foldl (fun m h => m.insert (QString.toLower h.1) (QString.trimmed h.2))
              r.header) } := by
  induction hs generalizing i r with
  | nil => simp
  | cons h hs ih =>
    rw [List.map_cons, List.cons_append,
      parseLines_header i h _ r (h1 h (by simp)) (h2 h (by simp)),
      ih (i + 1) _ (fun x hx => h1 x (by simp [hx])) (fun x hx => h2 x (by simp [hx]))]
    simp only [List.foldl_cons, List.length_cons]
    congr 1
    omega

theorem parseLines_requestLine (M U : QString) (a b : Char) (rest : List QString) (r : Request)
    (hM : M ≠ []) (hc : ':' ∉ requestLine M U a b) (hsM : ' ' ∉ M) (hsU : ' ' ∉ U)
    (hb : b.isDigit = true) (ha : a.isDigit = true) :
    parseLines 0 (requestLine M U a b :: rest) false r =
      parseLines 1 rest false
        { r with method := M, url := QString.trimmed U,
                 proto := "HTTP/".toList ++ [a, '.', b] } := by
  have hcol : QString.split [':'] (requestLine M U a b) = [requestLine M U a b] :=
    QString.split_single_self _ _ hc
  have hne : requestLine M U a b ≠ [] := by
    cases M with
    | nil => exact absurd rfl hM
    | cons c cs => simp [requestLine]
  have hpos := QString.size_pos hne
  have hna : ¬ ' ' = a := by rintro rfl; simp [Char.isDigit] at ha
  have hnb : ¬ ' ' = b := by rintro rfl; simp [Char.isDigit] at hb
  have hsp : QString.split [' '] (requestLine M U a b) =
      [M, U, "HTTP/".toList ++ [a, '.', b]] := by
    rw [requestLine, QString.split_single_append _ _ _ hsM,
      QString.split_single_append _ _ _ hsU, QString.split_single_self]
    simp [hna, hnb]
  have hlt : ¬ QString.size (requestLine M U a b) < 1 := by omega
  have hpr := QString.trimmed_proto a hb
  simp only [String.toList, List.cons_append, List.nil_append] at hpr hsp
  simp [parseLines, hcol, hlt, hsp, hpr]


theorem crlf_infix_append_cons {c : Char} (a b : QString) (h1 : c ≠ '\r') (h2 : c ≠ '\n')
    (h : crlf <:+: a ++ c :: b) : crlf <:+: a ∨ crlf <:+: b := by
  induction a with
  | nil =>
    rw [List.nil_append, List.infix_cons_iff] at h
    rcases h with h | h
    · rw [← List.isPrefixOf_iff_prefix] at h
      simp [crlf, List.isPrefixOf, h1.symm] at h
    · exact Or.inr h
  | cons d a ih =>
    rw [List.cons_append, List.infix_cons_iff] at h
    rcases h with h | h
    · rw [← List.isPrefixOf_iff_prefix] at h
      cases a with
      | nil => simp [crlf, List.isPrefixOf, h2.symm] at h
      | cons d2 a2 =>
        simp only [crlf, List.isPrefixOf, List.cons_append, Bool.and_eq_true, beq_iff_eq,
          Bool.and_true] at h
        left
        rw [← h.1, ← h.2]
        exact ⟨[], a2, by simp [crlf]⟩
    · rcases ih h with h | h
      · exact Or.inl (List.IsInfix.trans h (List.infix_cons (List.infix_refl a)))
      · exact Or.inr h

theorem not_crlf_headerLine (h : QString × QString) (h1 : ¬ crlf <:+: h.1)
    (h2 : ¬ crlf <:+: h.2) : ¬ crlf <:+: headerLine h := by
  intro e
  rcases crlf_infix_append_cons h.1 _ (by decide) (by decide) e with e | e
  · exact h1 e
  · rcases crlf_infix_append_cons [] h.2 (by decide) (by decide) e with e | e
    · simp [crlf] at e
    · exact h2 e

theorem split_crlf_headerBlock (hs : List (QString × QString)) (rest : QString)
    (h1 : ∀ h ∈ hs, ¬ crlf <:+: h.1) (h2 : ∀ h ∈ hs, ¬ crlf <:+: h.2) :
    QString.split crlf (headerBlock hs ++ rest) =
      hs.map headerLine ++ QString.split crlf rest := by
  induction hs with
  | nil => simp [headerBlock]
  | cons h hs ih =>
    have e : headerBlock (h :: hs) ++ rest = headerLine h ++ (crlf ++ (headerBlock hs ++ rest)) := by
      simp [headerBlock]
    rw [e, split_crlf_append _ _ (not_crlf_headerLine h (h1 h (by simp)) (h2 h (by simp))),
      ih (fun x hx => h1 x (by simp [hx])) (fun x hx => h2 x (by simp [hx]))]
    simp

theorem httpRx_wire (c : Char) (M' U' : QString) (a b : Char) (rest : QString)
    (hc : 'A' ≤ c ∧ c ≤ 'Z') (ha : a.isDigit = true) (hb : b.isDigit = true) :
    httpRx (requestLine (c :: M') ('/' :: U') a b ++ (crlf ++ rest)) = true := by
  simp only [httpRx, requestLine, List.cons_append, Bool.and_eq_true, decide_eq_true_eq,
    List.any_eq_true, List.mem_tails]
  refine ⟨hc, ' ' :: '/' :: (U' ++ ' ' :: ("HTTP/".toList ++ [a, '.', b]) ++ (crlf ++ rest)),
    ⟨c :: M', by simp⟩, by simp [List.isPrefixOf], ?_⟩
  refine ⟨' ' :: ("HTTP/".toList ++ [a, '.', b]) ++ (crlf ++ rest), ⟨U', by simp⟩, ?_⟩
  simp [protoAt, crlf, ha, hb]


/-! ## Lemmas on `http_build_header` -/

theorem foldl_append_fields (l : List (QString × QString)) (init : QString) :
    l.foldl (fun header j => header ++ (j.1 ++ ": ".toList ++ j.2 ++ crlf)) init =
      init ++ (l.map headerField).flatten := by
  induction l generalizing init with
  | nil => simp
  | cons j l ih =>
    rw [List.foldl_cons, ih]
    simp only [List.map_cons, List.flatten_cons, headerField, List.append_assoc]

theorem foldl_default_fields (response : Response) (l : List (QString × QString))
    (init : QString) :
    l.foldl
      (fun header i =>
        if i.1 = "content-length".toList ∧ response.header.value i.1 = [] then
          header ++ (i.1 ++ ": ".toList ++ QString.number (QString.size response.body) ++ crlf)
        else if response.header.value i.1 = [] then
          header ++ (i.1 ++ ": ".toList ++ i.2 ++ crlf)
        else header) init =
      init ++ ((l.filterMap (fun i =>
        if response.header.value i.1 = [] then
          some (i.1, if i.1 = "content-length".toList then
            QString.number (QString.size response.body) else i.2)
        else none)).map headerField).flatten := by
  induction l generalizing init with
  | nil => simp
  | cons i l ih =>
    rw [List.foldl_cons, ih]
    by_cases h1 : response.header.value i.1 = []
    · by_cases h2 : i.1 = "content-length".toList
      · have h1' := h1
        rw [h2] at h1'
        simp only [List.filterMap_cons, h1', h2, and_self, if_true, List.map_cons,
          List.flatten_cons, headerField, List.append_assoc]
      · simp only [List.filterMap_cons, h1, h2, false_and, and_true, if_true, if_false,
          List.map_cons, List.flatten_cons, headerField, List.append_assoc]
    · simp only [List.filterMap_cons, h1, and_false, if_false]

theorem http_build_header_eq (response : Response) :
    http_build_header response =
      statusLine response ++ ((emittedLines response).flatten ++ crlf) := by
  unfold http_build_header
  dsimp only
  rw [foldl_append_fields, foldl_default_fields]
  simp only [emittedLines, emittedFields, defaultFields, statusLine, List.map_append,
    List.flatten_append, List.append_assoc]

theorem digitChar_isDigit : ∀ d, d < 10 → (Nat.digitChar d).isDigit = true := by decide

theorem toDigitsCore_isDigit (fuel n : Nat) (ds : List Char)
    (h : ∀ c ∈ ds, c.isDigit = true) : ∀ c ∈ Nat.toDigitsCore 10 fuel n ds, c.isDigit = true := by
  induction fuel generalizing n ds with
  | zero => simpa [Nat.toDigitsCore] using h
  | succ fuel ih =>
    have hd := digitChar_isDigit (n % 10) (Nat.mod_lt _ (by decide))
    have hcons : ∀ c ∈ Nat.digitChar (n % 10) :: ds, c.isDigit = true := by
      intro c hc
      rcases List.mem_cons.mp hc with rfl | hc
      · exact hd
      · exact h c hc
    simp only [Nat.toDigitsCore]
    split
    · exact hcons
    · exact ih _ _ hcons

theorem toDigitsCore_ne_nil (fuel n : Nat) (ds : List Char) (h : ds ≠ [] ∨ 0 < fuel) :
    Nat.toDigitsCore 10 fuel n ds ≠ [] := by
  induction fuel generalizing n ds with
  | zero =>
    rcases h with h | h
    · simpa [Nat.toDigitsCore] using h
    · omega
  | succ fuel ih =>
    simp only [Nat.toDigitsCore]
    split
    · simp
    · exact ih _ _ (Or.inl (by simp))

theorem number_isDigit (n : Nat) : ∀ c ∈ QString.number n, c.isDigit = true :=
  toDigitsCore_isDigit _ _ _ (by simp)

theorem number_ne_nil (n : Nat) : QString.number n ≠ [] :=
  toDigitsCore_ne_nil _ _ _ (Or.inr (Nat.succ_pos n))

theorem colon_not_mem_number (n : Nat) : ':' ∉ QString.number n := fun h =>
  absurd (number_isDigit n _ h) (by decide)

theorem first_colon_unique {a b x y : QString} (ha : ':' ∉ a) (hx : ':' ∉ x)
    (h : b ++ ':' :: y = a ++ ':' :: x) : b = a ∧ y = x := by
  rcases List.append_eq_append_iff.mp h with ⟨t, h1, h2⟩ | ⟨t, h1, h2⟩
  · cases t with
    | nil => simp at h1 h2; exact ⟨h1.symm, h2⟩
    | cons c t =>
      simp only [List.cons_append, List.cons.injEq] at h2
      refine absurd ?_ ha
      rw [h1, ← h2.1]
      simp
  · cases t with
    | nil => simp at h1 h2; exact ⟨h1, h2.symm⟩
    | cons c t =>
      simp only [List.cons_append, List.cons.injEq] at h2
      exact absurd (by rw [h2.2]; simp) hx

theorem headerField_eq_contentLength (e : QString × QString) (n : Nat) :
    headerField e = headerField ("content-length".toList, QString.number n) ↔
      e = ("content-length".toList, QString.number n) := by
  constructor
  · intro h
    have hx : ':' ∉ ' ' :: (QString.number n ++ crlf) := by
      have := colon_not_mem_number n
      simp [crlf, this]
    have hcl : ':' ∉ "content-length".toList := by decide
    obtain ⟨h1, h2⟩ := first_colon_unique hcl hx h
    have h3 : e.2 ++ crlf = QString.number n ++ crlf := by simpa using h2
    exact Prod.ext h1 (List.append_cancel_right h3)
  · rintro rfl; rfl

namespace QHash

variable {K V : Type}

theorem findIn_of_mem [DecidableEq K] {l : List (K × V)} (hn : (l.map Prod.fst).Nodup)
    {k : K} {v : V} (h : (k, v) ∈ l) : findIn k l = some v := by
  induction l with
  | nil => simp at h
  | cons e rest ih =>
    obtain ⟨k0, v0⟩ := e
    simp only [List.map_cons, List.nodup_cons] at hn
    rcases List.mem_cons.mp h with h | h
    · cases h; simp [findIn]
    · have hne : ¬ k0 = k := by
        rintro rfl
        exact hn.1 (List.mem_map.mpr ⟨(k0, v), h, rfl⟩)
      simp [findIn, hne, ih hn.2 h]

theorem value_of_mem [DecidableEq K] [Inhabited V] (m : QHash K V) {k : K} {v : V}
    (h : (k, v) ∈ m.entries) : m.value k = v := by
  simp [value, find?, findIn_of_mem m.nodup h]

end QHash

theorem defaultFields_keys_sublist (r : Response) :
    ((defaultFields r).map Prod.fst).Sublist r.default_headers.keys := by
  unfold defaultFields QHash.keys
  induction r.default_headers.entries with
  | nil => simp
  | cons i l ih =>
    by_cases h : r.header.value i.1 = []
    · simp only [List.filterMap_cons, h, if_true, List.map_cons]
      exact ih.cons₂ _
    · simp only [List.filterMap_cons, h, if_false, List.map_cons]
      exact ih.cons _

theorem defaultFields_nodup (r : Response) : ((defaultFields r).map Prod.fst).Nodup :=
  (defaultFields_keys_sublist r).nodup r.default_headers.nodup

theorem mem_defaultFields (r : Response) (f : QString × QString) :
    f ∈ defaultFields r ↔
      ∃ i ∈ r.default_headers.entries, r.header.value i.1 = [] ∧
        f = (i.1, if i.1 = "content-length".toList then
          QString.number (QString.size r.body) else i.2) := by
  simp only [defaultFields, List.mem_filterMap]
  constructor
  · rintro ⟨i, hi, h⟩
    by_cases hv : r.header.value i.1 = []
    · simp only [hv, if_true, Option.some.injEq] at h
      exact ⟨i, hi, hv, h.symm⟩
    · simp [hv] at h
  · rintro ⟨i, hi, hv, rfl⟩
    exact ⟨i, hi, by simp [hv]⟩

theorem count_eq_one_of_mem_nodup {α : Type} [BEq α] [LawfulBEq α] {a : α} {l : List α}
    (d : l.Nodup) (h : a ∈ l) : l.count a = 1 := by
  induction l with
  | nil => simp at h
  | cons b l ih =>
    rw [List.nodup_cons] at d
    rw [List.count_cons]
    by_cases hab : b = a
    · subst hab
      rw [List.count_eq_zero_of_not_mem d.1]
      simp
    · have hin : a ∈ l := by
        rcases List.mem_cons.mp h with h | h
        · exact absurd h.symm hab
        · exact h
      rw [ih d.2 hin]
      simp [hab]

theorem count_headerField_contentLength (n : Nat) (l : List (QString × QString)) :
    (l.map headerField).count (headerField ("content-length".toList, QString.number n)) =
      l.count ("content-length".toList, QString.number n) := by
  induction l with
  | nil => rfl
  | cons e l ih =>
    rw [List.map_cons, List.count_cons, List.count_cons, ih]
    have : (headerField e == headerField ("content-length".toList, QString.number n)) =
        (e == ("content-length".toList, QString.number n)) := by
      rw [Bool.eq_iff_iff, beq_iff_eq, beq_iff_eq]
      exact headerField_eq_contentLength e n
    rw [this]

theorem not_crlf_number (n : Nat) : ¬ crlf <:+: QString.number n := by
  intro h
  have : '\r' ∈ QString.number n := h.subset (by simp [crlf])
  exact absurd (number_isDigit n _ this) (by decide)

theorem not_crlf_statusText (r : Response) (h1 : ¬ crlf <:+: r.proto)
    (h2 : ¬ crlf <:+: r.http_codes.value r.status) : ¬ crlf <:+: statusText r := by
  intro e
  rcases crlf_infix_append_cons r.proto _ (by decide) (by decide) e with e | e
  · exact h1 e
  · rcases crlf_infix_append_cons _ _ (by decide) (by decide) e with e | e
    · exact not_crlf_number _ e
    · exact h2 e

theorem flatten_headerField (l : List (QString × QString)) :
    (l.map headerField).flatten = headerBlock l := by
  induction l with
  | nil => rfl
  | cons f l ih =>
    simp only [List.map_cons, List.flatten_cons, ih, headerBlock, headerField, headerLine,
      String.toList, List.cons_append, List.nil_append, List.append_assoc]

theorem http_build_header_split (r : Response) (h1 : ¬ crlf <:+: r.proto)
    (h2 : ¬ crlf <:+: r.http_codes.value r.status)
    (h3 : ∀ f ∈ emittedFields r, ¬ crlf <:+: f.1 ∧ ¬ crlf <:+: f.2) :
    QString.split crlf (http_build_header r) =
      statusText r :: ((emittedFields r).map headerLine ++ [[], []]) := by
  have e : http_build_header r =
      statusText r ++ (crlf ++ (headerBlock (emittedFields r) ++ crlf)) := by
    rw [http_build_header_eq, emittedLines, flatten_headerField]
    simp only [statusLine, statusText, String.toList, List.cons_append, List.nil_append,
      List.append_assoc]
  rw [e, split_crlf_append _ _ (not_crlf_statusText r h1 h2),
    split_crlf_headerBlock _ _ (fun f hf => (h3 f hf).1) (fun f hf => (h3 f hf).2)]
  rfl

theorem size_eq_length_toStdString (s : QString) (h : ∀ c ∈ s, c.toNat < 128) :
    QString.size s = (QString.toStdString s).length := by
  induction s with
  | nil => rfl
  | cons c s ih =>
    have hc : c.toNat < 128 := h c (by simp)
    have hv : c.val ≤ 127 := by
      rw [UInt32.le_def]
      have : c.val.toNat < 128 := hc
      exact Nat.le_of_lt_succ this
    have h1 : QString.units c = 1 := by
      unfold QString.units
      rw [if_pos (by omega)]
    have h2 : (String.utf8EncodeChar c).length = 1 := by
      rw [String.length_utf8EncodeChar]
      unfold Char.utf8Size
      simp only
      exact if_pos hv
    have ih' := ih (fun d hd => h d (by simp [hd]))
    simp only [QString.size, QString.toStdString, List.map_cons, List.sum_cons,
      List.flatMap_cons, List.length_append] at ih' ⊢
    omega

theorem contentLength_line_once (r : Response)
    (hd : "content-length".toList ∈ r.default_headers.keys)
    (hu : r.header.value "content-length".toList = []) :
    (emittedLines r).count
      (headerField ("content-length".toList, QString.number (QString.size r.body))) = 1 := by
  rw [emittedLines, count_headerField_contentLength, emittedFields, List.count_append]
  obtain ⟨i, hi, hik⟩ := List.mem_map.mp hd
  have hmem : ("content-length".toList, QString.number (QString.size r.body)) ∈
      defaultFields r := by
    refine (mem_defaultFields r _).mpr ⟨i, hi, by rw [hik]; exact hu, ?_⟩
    simp [hik]
  have h1 := count_eq_one_of_mem_nodup (List.Nodup.of_map _ (defaultFields_nodup r)) hmem
  have h2 : ("content-length".toList, QString.number (QString.size r.body)) ∉
      r.header.entries := by
    intro hin
    have := QHash.value_of_mem r.header hin
    rw [hu] at this
    exact number_ne_nil _ this.symm
  rw [h1, List.count_eq_zero_of_not_mem h2]

theorem emitted_names_nodup (r : Response)
    (h : ∀ e ∈ r.header.entries, e.1 ∈ r.default_headers.keys → e.2 ≠ []) :
    ((emittedFields r).map Prod.fst).Nodup := by
  rw [emittedFields, List.map_append]
  refine List.Nodup.append (defaultFields_nodup r) r.header.nodup ?_
  intro k hk1 hk2
  obtain ⟨f, hf, rfl⟩ := List.mem_map.mp hk1
  obtain ⟨e, he, hek⟩ := List.mem_map.mp hk2
  obtain ⟨i, hi, hv, rfl⟩ := (mem_defaultFields r f).mp hf
  have hval : r.header.value e.1 = e.2 := QHash.value_of_mem r.header (by simpa using he)
  simp only at hek
  rw [← hek, hval] at hv
  exact h e he (by rw [hek]; exact List.mem_map.mpr ⟨i, hi, rfl⟩) hv

/-! ## Lemmas on the dispatch -/

theorem minCalls_le_maxCalls (p : next_f) : p.minCalls ≤ p.maxCalls := by
  induction p with
  | ret => simp [next_f.minCalls, next_f.maxCalls]
  | act f k ih => simpa [next_f.minCalls, next_f.maxCalls] using ih
  | next k ih => simpa [next_f.minCalls, next_f.maxCalls] using ih
  | branch c t e iht ihe =>
    simp only [next_f.minCalls, next_f.maxCalls]
    omega

theorem invoked_append (a b : List Event) : invoked (a ++ b) = invoked a ++ invoked b := by
  simp [invoked, List.filterMap_append]

theorem invoked_enter (i : Nat) : invoked [Event.enter i] = [i] := rfl

theorem invoked_calls (i : Nat) : invoked [Event.calls i] = [] := rfl

theorem runHandler_no_call (next : Run → Option Run) (self : Nat) (p : next_f)
    (hp : p.maxCalls = 0) (w : Run) :
    ∃ w', runHandler next self p w = some w' ∧
      w'.current_middleware = w.current_middleware ∧ w'.trace = w.trace := by
  induction p generalizing w with
  | ret => exact ⟨w, rfl, rfl, rfl⟩
  | act f k ih =>
    obtain ⟨w', h1, h2, h3⟩ := ih (by simpa [next_f.maxCalls] using hp)
      { w with exchange := f w.exchange }
    exact ⟨w', by simpa [runHandler] using h1, h2, h3⟩
  | next k _ => simp [next_f.maxCalls] at hp
  | branch c t e iht ihe =>
    simp only [next_f.maxCalls] at hp
    by_cases hc : c w.exchange = true
    · obtain ⟨w', h1, h2, h3⟩ := iht (by omega) w
      exact ⟨w', by simpa [runHandler, hc] using h1, h2, h3⟩
    · obtain ⟨w', h1, h2, h3⟩ := ihe (by omega) w
      exact ⟨w', by simpa [runHandler, hc] using h1, h2, h3⟩

theorem runHandler_total (next : Run → Option Run) (self : Nat) (p : next_f) (c0 : Nat)
    (hnext : ∀ w1 : Run, c0 ≤ w1.current_middleware →
      ∃ w2, next w1 = some w2 ∧ c0 ≤ w2.current_middleware)
    (w : Run) (hw : c0 ≤ w.current_middleware) :
    ∃ w', runHandler next self p w = some w' ∧ c0 ≤ w'.current_middleware := by
  induction p generalizing w with
  | ret => exact ⟨w, rfl, hw⟩
  | act f k ih =>
    obtain ⟨w', h1, h2⟩ := ih { w with exchange := f w.exchange } hw
    exact ⟨w', by simpa [runHandler] using h1, h2⟩
  | next k ih =>
    obtain ⟨w1, h1, h2⟩ := hnext { w with trace := w.trace ++ [Event.calls self] } hw
    obtain ⟨w', h3, h4⟩ := ih w1 h2
    exact ⟨w', by simpa [runHandler, h1] using h3, h4⟩
  | branch c t e iht ihe =>
    by_cases hc : c w.exchange = true
    · obtain ⟨w', h1, h2⟩ := iht w hw
      exact ⟨w', by simpa [runHandler, hc] using h1, h2⟩
    · obtain ⟨w', h1, h2⟩ := ihe w hw
      exact ⟨w', by simpa [runHandler, hc] using h1, h2⟩

theorem m_next_ge (mw : List next_f) (fuel : Nat) (w : Run)
    (h : mw.length ≤ w.current_middleware + 1) :
    m_next mw fuel w = some { w with current_middleware := w.current_middleware + 1 } := by
  cases fuel <;> simp [m_next, h]

theorem m_next_lt (mw : List next_f) (fuel : Nat) (w : Run) (h : next_f)
    (hlt : w.current_middleware + 1 < mw.length)
    (hh : mw[w.current_middleware + 1]? = some h) :
    m_next mw (fuel + 1) w =
      runHandler (m_next mw fuel) (w.current_middleware + 1) h
        { w with current_middleware := w.current_middleware + 1,
                 trace := w.trace ++ [Event.enter (w.current_middleware + 1)] } := by
  have : ¬ mw.length ≤ w.current_middleware + 1 := by omega
  simp [m_next, this, hh]

theorem m_next_total (mw : List next_f) (fuel : Nat) (w : Run)
    (h : mw.length ≤ fuel + w.current_middleware + 1) :
    ∃ w', m_next mw fuel w = some w' ∧ w.current_middleware + 1 ≤ w'.current_middleware := by
  induction fuel generalizing w with
  | zero => exact ⟨_, m_next_ge mw 0 w (by omega), Nat.le_refl _⟩
  | succ fuel ih =>
    by_cases hge : mw.length ≤ w.current_middleware + 1
    · exact ⟨_, m_next_ge mw _ w hge, Nat.le_refl _⟩
    · have hlt : w.current_middleware + 1 < mw.length := by omega
      have hh : mw[w.current_middleware + 1]? = some mw[w.current_middleware + 1] :=
        List.getElem?_eq_getElem hlt
      rw [m_next_lt mw fuel w _ hlt hh]
      exact runHandler_total _ _ _ (w.current_middleware + 1)
        (fun w1 hw1 => by
          obtain ⟨w2, h1, h2⟩ := ih w1 (by omega)
          exact ⟨w2, h1, by omega⟩) _ (Nat.le_refl _)

theorem dispatch_total (mw : List next_f) (c : Nat) (x : Exchange) (hc : c < mw.length ∨ mw = []) :
    ∃ run, dispatch mw c x = some run := by
  rcases hc with hc | hc
  · have hh : mw[c]? = some mw[c] := List.getElem?_eq_getElem hc
    have hpos : mw.length > 0 := by omega
    simp only [dispatch, hpos, if_true, hh]
    obtain ⟨w', h1, _⟩ := runHandler_total (m_next mw mw.length) c mw[c] c
      (fun w1 hw1 => by
        obtain ⟨w2, h1, h2⟩ := m_next_total mw mw.length w1 (by omega)
        exact ⟨w2, h1, by omega⟩)
      { current_middleware := c, exchange := x, trace := [Event.enter c] } (Nat.le_refl _)
    exact ⟨w', h1⟩
  · subst hc
    exact ⟨{ current_middleware := c, exchange := x, trace := [] }, by simp [dispatch]⟩

theorem runHandler_once (next : Run → Option Run) (self : Nat) (p : next_f)
    (hp : p.callsOnce) (L : List Nat) (w : Run)
    (hnext : ∀ w1 : Run, w1.current_middleware = w.current_middleware →
      ∃ w2, next w1 = some w2 ∧ invoked w2.trace = invoked w1.trace ++ L) :
    ∃ w', runHandler next self p w = some w' ∧ invoked w'.trace = invoked w.trace ++ L := by
  induction p generalizing w with
  | ret => simp [next_f.callsOnce, next_f.minCalls] at hp
  | act f k ih =>
    obtain ⟨w', h1, h2⟩ := ih hp { w with exchange := f w.exchange } hnext
    exact ⟨w', by simpa [runHandler] using h1, h2⟩
  | next k _ =>
    obtain ⟨w1, h1, h2⟩ := hnext { w with trace := w.trace ++ [Event.calls self] } rfl
    have hk : k.maxCalls = 0 := by
      have := hp.2
      simp only [next_f.maxCalls] at this
      omega
    obtain ⟨w', h3, _, h5⟩ := runHandler_no_call next self k hk w1
    refine ⟨w', by simpa [runHandler, h1] using h3, ?_⟩
    rw [h5, h2, invoked_append, invoked_calls, List.append_nil]
  | branch c t e iht ihe =>
    have ht := minCalls_le_maxCalls t
    have he := minCalls_le_maxCalls e
    have h1 := hp.1
    have h2 := hp.2
    simp only [next_f.minCalls, next_f.maxCalls] at h1 h2
    by_cases hc : c w.exchange = true
    · obtain ⟨w', h3, h4⟩ := iht ⟨by omega, by omega⟩ w hnext
      exact ⟨w', by simpa [runHandler, hc] using h3, h4⟩
    · obtain ⟨w', h3, h4⟩ := ihe ⟨by omega, by omega⟩ w hnext
      exact ⟨w', by simpa [runHandler, hc] using h3, h4⟩

theorem runHandler_at_end (mw : List next_f) (fuel self : Nat) (p : next_f) (w : Run)
    (h : mw.length ≤ w.current_middleware + 1) :
    ∃ w', runHandler (m_next mw fuel) self p w = some w' ∧
      invoked w'.trace = invoked w.trace ∧ mw.length ≤ w'.current_middleware + 1 := by
  induction p generalizing w with
  | ret => exact ⟨w, rfl, rfl, h⟩
  | act f k ih =>
    obtain ⟨w', h1, h2, h3⟩ := ih { w with exchange := f w.exchange } h
    exact ⟨w', by simpa [runHandler] using h1, h2, h3⟩
  | next k ih =>
    have hn := m_next_ge mw fuel { w with trace := w.trace ++ [Event.calls self] } h
    obtain ⟨w', h1, h2, h3⟩ := ih
      { w with trace := w.trace ++ [Event.calls self],
               current_middleware := w.current_middleware + 1 } (by simp only; omega)
    refine ⟨w', by simpa [runHandler, hn] using h1, ?_, h3⟩
    rw [h2, invoked_append, invoked_calls, List.append_nil]
  | branch c t e iht ihe =>
    by_cases hc : c w.exchange = true
    · obtain ⟨w', h1, h2⟩ := iht w h
      exact ⟨w', by simpa [runHandler, hc] using h1, h2⟩
    · obtain ⟨w', h1, h2⟩ := ihe w h
      exact ⟨w', by simpa [runHandler, hc] using h1, h2⟩

theorem runHandler_chain (mw : List next_f) (k : Nat) (hk : k < mw.length)
    (h1 : ∀ i h, i < k → mw[i]? = some h → h.callsOnce)
    (h2 : (∀ h, mw[k]? = some h → h.neverCalls) ∨ k + 1 = mw.length) :
    ∀ d j, j + d = k → ∀ fuel (w : Run) h, mw[j]? = some h → w.current_middleware = j →
      mw.length ≤ fuel + j + 1 →
      ∃ w', runHandler (m_next mw fuel) j h w = some w' ∧
        invoked w'.trace = invoked w.trace ++ List.range' (j + 1) d := by
  intro d
  induction d with
  | zero =>
    intro j hj fuel w h hh hw _
    have hjk : j = k := by omega
    subst hjk
    rcases h2 with h2 | h2
    · obtain ⟨w', e1, _, e3⟩ := runHandler_no_call (m_next mw fuel) j h (h2 h hh) w
      exact ⟨w', e1, by simp [e3]⟩
    · obtain ⟨w', e1, e2, _⟩ := runHandler_at_end mw fuel j h w (by omega)
      exact ⟨w', e1, by simp [e2]⟩
  | succ d ih =>
    intro j hj fuel w h hh hw hf
    have hlt : j + 1 < mw.length := by omega
    have hh' : mw[j + 1]? = some mw[j + 1] := List.getElem?_eq_getElem hlt
    obtain ⟨fuel1, rfl⟩ : ∃ fuel1, fuel = fuel1 + 1 := ⟨fuel - 1, by omega⟩
    refine runHandler_once _ j h (h1 j h (by omega) hh) _ w ?_
    intro w1 hw1
    have hc : w1.current_middleware = j := by omega
    have hlt1 : w1.current_middleware + 1 < mw.length := by omega
    have hh1 : mw[w1.current_middleware + 1]? = some mw[j + 1] := by rw [hc]; exact hh'
    rw [m_next_lt mw fuel1 w1 _ hlt1 hh1, hc]
    obtain ⟨w2, e1, e2⟩ := ih (j + 1) (by omega) fuel1
      { w1 with current_middleware := j + 1, trace := w1.trace ++ [Event.enter (j + 1)] }
      mw[j + 1] hh' rfl (by omega)
    refine ⟨w2, e1, ?_⟩
    rw [e2, invoked_append, invoked_enter, List.range'_succ]
    simp

theorem runHandler_bounded (next : Run → Option Run) (self : Nat) (p : next_f) (k : Nat)
    (hp : p.maxCalls ≤ 1) (w : Run) (hw : w.current_middleware ≤ k)
    (hwt : ∀ j ∈ invoked w.trace, j ≤ k)
    (hnext : ∀ w1 : Run, w1.current_middleware = w.current_middleware →
      (∀ j ∈ invoked w1.trace, j ≤ k) →
      ∃ w2, next w1 = some w2 ∧ w2.current_middleware ≤ k ∧ ∀ j ∈ invoked w2.trace, j ≤ k) :
    ∃ w', runHandler next self p w = some w' ∧ w'.current_middleware ≤ k ∧
      ∀ j ∈ invoked w'.trace, j ≤ k := by
  induction p generalizing w with
  | ret => exact ⟨w, rfl, hw, hwt⟩
  | act f k0 ih =>
    obtain ⟨w', e1, e2⟩ := ih (by simpa [next_f.maxCalls] using hp)
      { w with exchange := f w.exchange } hw hwt hnext
    exact ⟨w', by simpa [runHandler] using e1, e2⟩
  | next k0 _ =>
    have hk0 : k0.maxCalls = 0 := by
      simp only [next_f.maxCalls] at hp
      omega
    obtain ⟨w1, e1, e2, e3⟩ := hnext { w with trace := w.trace ++ [Event.calls self] } rfl
      (by simpa [invoked_append, invoked_calls] using hwt)
    obtain ⟨w', e4, e5, e6⟩ := runHandler_no_call next self k0 hk0 w1
    exact ⟨w', by simpa [runHandler, e1] using e4, by omega, by rw [e6]; exact e3⟩
  | branch c t e iht ihe =>
    simp only [next_f.maxCalls] at hp
    by_cases hc : c w.exchange = true
    · obtain ⟨w', e1, e2⟩ := iht (by omega) w hw hwt hnext
      exact ⟨w', by simpa [runHandler, hc] using e1, e2⟩
    · obtain ⟨w', e1, e2⟩ := ihe (by omega) w hw hwt hnext
      exact ⟨w', by simpa [runHandler, hc] using e1, e2⟩

theorem m_next_bounded (mw : List next_f) (k : Nat) (hk : k < mw.length)
    (h1 : ∀ i h, i < k → mw[i]? = some h → h.maxCalls ≤ 1)
    (h2 : ∀ h, mw[k]? = some h → h.neverCalls) :
    ∀ fuel (w : Run), w.current_middleware < k → mw.length ≤ fuel + w.current_middleware + 1 →
      (∀ j ∈ invoked w.trace, j ≤ k) →
      ∃ w', m_next mw fuel w = some w' ∧ w'.current_middleware ≤ k ∧
        ∀ j ∈ invoked w'.trace, j ≤ k := by
  intro fuel
  induction fuel with
  | zero => intro w hw hf _; omega
  | succ fuel ih =>
    intro w hw hf hwt
    have hlt : w.current_middleware + 1 < mw.length := by omega
    have hh : mw[w.current_middleware + 1]? = some mw[w.current_middleware + 1] :=
      List.getElem?_eq_getElem hlt
    rw [m_next_lt mw fuel w _ hlt hh]
    have hwt' : ∀ j ∈ invoked (w.trace ++ [Event.enter (w.current_middleware + 1)]), j ≤ k := by
      intro j hj
      rw [invoked_append, invoked_enter, List.mem_append, List.mem_singleton] at hj
      rcases hj with hj | hj
      · exact hwt j hj
      · omega
    by_cases hck : w.current_middleware + 1 = k
    · obtain ⟨w', e1, e2, e3⟩ := runHandler_no_call (m_next mw fuel) (w.current_middleware + 1)
        mw[w.current_middleware + 1] (h2 _ (by rw [← hck]; exact hh))
        { w with current_middleware := w.current_middleware + 1,
                 trace := w.trace ++ [Event.enter (w.current_middleware + 1)] }
      exact ⟨w', e1, by rw [e2]; simp only; omega, by rw [e3]; exact hwt'⟩
    · refine runHandler_bounded _ _ _ k (h1 _ _ (by omega) hh) _ (by simp only; omega) hwt' ?_
      intro w1 hw1 hw1t
      simp only at hw1
      exact ih w1 (by omega) (by omega) hw1t

/-! ## Lemmas on the events -/

theorem WellFormed.facts {M U : QString} {a b : Char} {hs : List (QString × QString)}
    {B : QString} (h : WellFormed M U a b hs B) :
    M ≠ [] ∧ ' ' ∉ M ∧ ' ' ∉ U ∧
      ∀ rest, httpRx (requestLine M U a b ++ (crlf ++ rest)) = true := by
  obtain ⟨c, M', hM, hc⟩ := h.method_upper
  obtain ⟨U', hU⟩ := h.url_slash
  have hcount := h.two_spaces
  have hna : ¬ a = ' ' := by rintro rfl; exact absurd h.digits.1 (by decide)
  have hnb : ¬ b = ' ' := by rintro rfl; exact absurd h.digits.2 (by decide)
  simp only [requestLine, String.toList, List.count_append, List.count_cons, List.count_nil,
    List.cons_append, List.nil_append] at hcount
  simp [hna, hnb] at hcount
  refine ⟨by rw [hM]; simp, List.count_eq_zero.mp (by omega), List.count_eq_zero.mp (by omega),
    fun rest => ?_⟩
  rw [hM, hU]
  exact httpRx_wire c M' U' a b _ hc h.digits.1 h.digits.2

theorem http_parse_headers_only (r0 : Request) (M U : QString) (a b : Char)
    (hs : List (QString × QString)) (h : WellFormed M U a b hs []) :
    http_parse { r0 with data := requestLine M U a b ++ (crlf ++ headerBlock hs) } = some
      { r0 with
        data := requestLine M U a b ++ (crlf ++ headerBlock hs),
        method := M, url := QString.trimmed U, proto := "HTTP/".toList ++ [a, '.', b],
        header := (hs.foldl
          (fun m h => m.insert (QString.toLower h.1) (QString.trimmed h.2)) r0.header) } := by
  obtain ⟨hMne, hsM, hsU, hrx⟩ := h.facts
  have hrx' : httpRx (requestLine M U a b ++ (crlf ++ headerBlock hs)) = true := hrx _
  have hsplit : QString.split crlf (requestLine M U a b ++ (crlf ++ headerBlock hs)) =
      requestLine M U a b :: (hs.map headerLine ++ [[]]) := by
    rw [split_crlf_append _ _ h.one_line]
    have := split_crlf_headerBlock hs [] (fun x hx => (h.names x hx).2.2)
      (fun x hx => (h.values x hx).2)
    rw [List.append_nil] at this
    rw [this]
    rfl
  simp only [http_parse, hrx', Bool.not_true, Bool.false_eq_true, if_false, hsplit]
  rw [parseLines_requestLine M U a b _ _ hMne h.no_colon hsM hsU h.digits.2 h.digits.1,
    parseLines_headers 1 hs _ _ (fun x hx => (h.names x hx).2.1) (fun x hx => (h.values x hx).1),
    parseLines_blank, parseLines_body]
  rfl

theorem complete_of_find (request : Request) (x : QString)
    (h : request.header.find? "content-length".toList = some x) :
    complete request = !decide ((request.body_length : Int) < QString.toInt x) := by
  unfold complete QHash.value
  rw [h]
  rfl

theorem touch_of_find {K V : Type} [DecidableEq K] [Inhabited V] (m : QHash K V) (k : K) (x : V)
    (h : m.find? k = some x) : m.touch k = m := by
  simp [QHash.touch, h]

theorem find_contentLength (hs : List (QString × QString)) (m : QHash QString QString)
    (name v : QString)
    (hcl : hs.reverse.find? (fun h => decide (QString.toLower h.1 = "content-length".toList))
      = some (name, v)) :
    (hs.foldl (fun m h => m.insert (QString.toLower h.1) (QString.trimmed h.2)) m).find?
      "content-length".toList = some (QString.trimmed v) := by
  rw [QHash.find?_foldl_insert (fun h : QString × QString => QString.toLower h.1)
    (fun h : QString × QString => QString.trimmed h.2), hcl]

theorem receive_headers_only (r0 : Request) (bytes : QString) (hb : r0.body_length = 0)
    (h : HeaderOnly (r0.data ++ bytes)) :
    ∃ r1, receive r0 bytes = some r1 ∧ r1.data = r0.data ++ bytes ∧ r1.body_length = 0 ∧
      complete r1 = false := by
  obtain ⟨M, U, a, b, hs, name, v, hw, ht, hcl, hpos⟩ := h
  have hp := http_parse_headers_only r0 M U a b hs hw
  rw [← ht] at hp
  have hf := find_contentLength hs r0.header name v hcl
  have hrec : receive r0 bytes = some
      { r0 with
        data := r0.data ++ bytes,
        method := M, url := QString.trimmed U, proto := "HTTP/".toList ++ [a, '.', b],
        header := (hs.foldl
          (fun m h => m.insert (QString.toLower h.1) (QString.trimmed h.2)) r0.header) } := by
    simp only [receive, hp, touch_of_find _ _ _ hf]
  refine ⟨_, hrec, rfl, hb, ?_⟩
  rw [complete_of_find _ (QString.trimmed v) hf]
  simp only [hb]
  simpa using hpos

theorem readyRead_incomplete (s : Server) (socket_id : Int) (bytes : QString) (client : Client)
    (request : Request) (hc : s.client? socket_id = some client)
    (hr : receive client.request bytes = some request) (hi : complete request = false) :
    readyRead s socket_id bytes = some
      { s with connections :=
          QHash.setIn socket_id { client with request := request } s.connections } := by
  simp [readyRead, hc, hr, hi]

theorem feed_headers_only_aux (socket_id : Int) (chunks : List QString) :
    ∀ (s : Server) (client : Client), s.client? socket_id = some client →
      client.request.body_length = 0 →
      (∀ j, j < chunks.length → HeaderOnly (client.request.data ++ (chunks.take (j + 1)).flatten)) →
      ∃ s', feed s socket_id chunks = some s' ∧ s'.written = s.written ∧ s'.trace = s.trace ∧
        ∃ c, s'.client? socket_id = some c := by
  induction chunks with
  | nil => intro s client hc _ _; exact ⟨s, rfl, rfl, rfl, client, hc⟩
  | cons bytes rest ih =>
    intro s client hc hb h
    have h0 := h 0 (by simp)
    simp only [Nat.zero_add, List.take_succ_cons, List.take_zero, List.flatten_cons,
      List.flatten_nil, List.append_nil] at h0
    obtain ⟨r1, e1, e2, e3, e4⟩ := receive_headers_only client.request bytes hb h0
    have hrr := readyRead_incomplete s socket_id bytes client r1 hc e1 e4
    obtain ⟨s', f1, f2, f3, f4⟩ := ih
      { s with connections := QHash.setIn socket_id { client with request := r1 } s.connections }
      { client with request := r1 }
      (by simp [Server.client?, QHash.findIn_setIn]) e3
      (fun j hj => by
        have := h (j + 1) (by simpa using hj)
        simpa [e2, List.append_assoc] using this)
    exact ⟨s', by simp only [feed, hrr, f1], f2, f3, f4⟩

/-! ## Lemmas on the order of the invocations -/

theorem runHandler_invariant (P : Run → Prop) (next : Run → Option Run) (self : Nat)
    (hact : ∀ (w : Run) (f : Exchange → Exchange), P w → P { w with exchange := f w.exchange })
    (hcall : ∀ w : Run, P w →
      ∃ w1, next { w with trace := w.trace ++ [Event.calls self] } = some w1 ∧ P w1)
    (p : next_f) (w : Run) (hw : P w) :
    ∃ w', runHandler next self p w = some w' ∧ P w' := by
  induction p generalizing w with
  | ret => exact ⟨w, rfl, hw⟩
  | act f k ih =>
    obtain ⟨w', h1, h2⟩ := ih { w with exchange := f w.exchange } (hact w f hw)
    exact ⟨w', by simpa [runHandler] using h1, h2⟩
  | next k ih =>
    obtain ⟨w1, h1, h2⟩ := hcall w hw
    obtain ⟨w', h3, h4⟩ := ih w1 h2
    exact ⟨w', by simpa [runHandler, h1] using h3, h4⟩
  | branch c t e iht ihe =>
    by_cases hc : c w.exchange = true
    · obtain ⟨w', h1, h2⟩ := iht w hw
      exact ⟨w', by simpa [runHandler, hc] using h1, h2⟩
    · obtain ⟨w', h1, h2⟩ := ihe w hw
      exact ⟨w', by simpa [runHandler, hc] using h1, h2⟩

theorem m_next_invoked (mw : List next_f) (fuel : Nat) (w : Run)
    (hf : mw.length ≤ fuel + w.current_middleware + 1)
    (hw : invoked w.trace = List.range (min (w.current_middleware + 1) mw.length)) :
    ∃ w', m_next mw fuel w = some w' ∧ w.current_middleware + 1 ≤ w'.current_middleware ∧
      invoked w'.trace = List.range (min (w'.current_middleware + 1) mw.length) := by
  induction fuel generalizing w with
  | zero =>
    refine ⟨_, m_next_ge mw 0 w (by omega), Nat.le_refl _, ?_⟩
    simp only
    rw [hw, Nat.min_eq_right (by omega), Nat.min_eq_right (by omega)]
  | succ fuel ih =>
    by_cases hge : mw.length ≤ w.current_middleware + 1
    · refine ⟨_, m_next_ge mw _ w hge, Nat.le_refl _, ?_⟩
      simp only
      rw [hw, Nat.min_eq_right (by omega), Nat.min_eq_right (by omega)]
    · have hlt : w.current_middleware + 1 < mw.length := by omega
      have hh : mw[w.current_middleware + 1]? = some mw[w.current_middleware + 1] :=
        List.getElem?_eq_getElem hlt
      rw [m_next_lt mw fuel w _ hlt hh]
      exact runHandler_invariant
        (fun v : Run => w.current_middleware + 1 ≤ v.current_middleware ∧
          invoked v.trace = List.range (min (v.current_middleware + 1) mw.length))
        _ _ (fun v f hv => hv)
        (fun v hv => by
          obtain ⟨w1, e1, e2, e3⟩ := ih { v with trace := v.trace ++ [Event.calls _] }
            (by simp only; omega)
            (by simp only [invoked_append, invoked_calls, List.append_nil]; exact hv.2)
          simp only at e2
          exact ⟨w1, e1, by omega, e3⟩)
        _ _ ⟨Nat.le_refl _, by
          simp only [invoked_append, invoked_enter, hw]
          rw [Nat.min_eq_left (by omega), Nat.min_eq_left (by omega)]
          exact (List.range_succ (w.current_middleware + 1)).symm⟩

theorem dispatch_invoked (mw : List next_f) (x : Exchange) :
    ∃ run m, dispatch mw 0 x = some run ∧ m ≤ mw.length ∧
      invoked run.trace = List.range m ∧ (mw ≠ [] → 0 < m) := by
  by_cases hpos : mw.length > 0
  · have hh : mw[0]? = some mw[0] := List.getElem?_eq_getElem hpos
    obtain ⟨w', e1, _, e3⟩ := runHandler_invariant
      (fun v : Run => 0 ≤ v.current_middleware ∧
        invoked v.trace = List.range (min (v.current_middleware + 1) mw.length))
      (m_next mw mw.length) 0 (fun v f hv => hv)
      (fun v hv => by
        obtain ⟨w1, e1, _, e3⟩ := m_next_invoked mw mw.length
          { v with trace := v.trace ++ [Event.calls 0] } (by simp only; omega)
          (by simp only [invoked_append, invoked_calls, List.append_nil]; exact hv.2)
        exact ⟨w1, e1, Nat.zero_le _, e3⟩)
      mw[0] { current_middleware := 0, exchange := x, trace := [Event.enter 0] }
      ⟨Nat.le_refl _, by
        simp only [invoked_enter]
        rw [Nat.min_eq_left (by omega)]
        rfl⟩
    refine ⟨w', min (w'.current_middleware + 1) mw.length,
      by simpa [dispatch, hpos, hh] using e1, Nat.min_le_right _ _, e3, fun _ => ?_⟩
    exact Nat.lt_min.mpr ⟨Nat.succ_pos _, hpos⟩
  · have hnil : mw = [] := List.length_eq_zero.mp (by omega)
    subst hnil
    exact ⟨{ current_middleware := 0, exchange := x, trace := [] }, 0, by simp [dispatch],
      Nat.le_refl _, rfl, fun h => absurd rfl h⟩

theorem readyRead_some (s : Server) (socket_id : Int) (bytes : QString) (s' : Server)
    (h : readyRead s socket_id bytes = some s') :
    ∃ client request, s.client? socket_id = some client ∧
      receive client.request bytes = some request ∧
      ((complete request = false ∧
          s' = { s with connections :=
            (QHash.setIn socket_id { client with request := request } s.connections) }) ∨
        (complete request = true ∧ ∃ resp data tr,
          respond s.m_middleware s.current_middleware { client with request := request } =
            some (resp, data, tr) ∧
          s' = { s with
            current_middleware := 0,
            connections := s.connections.filter (fun e => e.1 ≠ socket_id),
            written := s.written ++ [(socket_id, data)],
            trace := s.trace ++ tr })) := by
  unfold readyRead at h
  cases hc : s.client? socket_id with
  | none => simp [hc] at h
  | some client =>
    cases hr : receive client.request bytes with
    | none => simp [hc, hr] at h
    | some request =>
      refine ⟨client, request, rfl, hr, ?_⟩
      by_cases hcomp : complete request = true
      · right
        refine ⟨hcomp, ?_⟩
        cases hresp : respond s.m_middleware s.current_middleware
            { client with request := request } with
        | none => simp [hc, hr, hcomp, hresp] at h
        | some out =>
          obtain ⟨resp, data, tr⟩ := out
          simp only [hc, hr, hcomp, hresp, Bool.not_true, Bool.false_eq_true, if_false,
            Option.some.injEq] at h
          exact ⟨resp, data, tr, rfl, h.symm⟩
      · left
        have hf : complete request = false := by simpa using hcomp
        simp only [hc, hr, hf, Bool.not_false, if_true, Option.some.injEq] at h
        exact ⟨hf, h.symm⟩

theorem respond_trace (mw : List next_f) (client : Client) (resp : Response) (data : QString)
    (tr : List Event) (h : respond mw 0 client = some (resp, data, tr)) :
    ∃ m, m ≤ mw.length ∧ invoked tr = List.range m ∧ (mw ≠ [] → 0 < m) := by
  obtain ⟨run, m, e1, e2, e3, e4⟩ := dispatch_invoked mw ⟨client.request, client.response⟩
  simp only [respond, e1, Option.some.injEq, Prod.mk.injEq] at h
  exact ⟨m, e2, by rw [← h.2.2]; exact e3, e4⟩

theorem step_cursor (s : Server) (input : Input) (s' : Server) (h : step s input = some s')
    (h0 : s.current_middleware = 0) : s'.current_middleware = 0 := by
  cases input with
  | connect socket_id =>
    simp only [step, Option.some.injEq] at h
    rw [← h]
    exact h0
  | bytes socket_id chunk =>
    obtain ⟨client, request, _, _, hcase⟩ := readyRead_some s socket_id chunk s' h
    rcases hcase with ⟨_, rfl⟩ | ⟨_, resp, data, tr, _, rfl⟩
    · exact h0
    · rfl
  | closed socket_id =>
    simp only [step, peerClosed, Option.some.injEq] at h
    rw [← h]
    exact h0

theorem steps_cursor (inputs : List Input) :
    ∀ (s s' : Server), steps s inputs = some s' → s.current_middleware = 0 →
      s'.current_middleware = 0 := by
  induction inputs with
  | nil =>
    intro s s' h h0
    simp only [steps, Option.some.injEq] at h
    rw [← h]
    exact h0
  | cons input rest ih =>
    intro s s' h h0
    simp only [steps] at h
    cases hs : step s input with
    | none => simp [hs] at h
    | some s1 =>
      simp only [hs] at h
      exact ih s1 s' h (step_cursor s input s1 hs h0)

/-! ## Lemmas on the fallback, the built text and the call of the builder -/

theorem foldl_call_default (r : Response) (l : List (QString × QString)) (t : QString) :
    l.foldl
      (fun (st : Response × QString) i =>
        let rd := st.1.header.readConst i.1
        let after : Response := { st.1 with header := rd.1 }
        if i.1 = "content-length".toList ∧ rd.2 = [] then
          (after, st.2 ++ (i.1 ++ ": ".toList ++ QString.number (QString.size after.body) ++ crlf))
        else if rd.2 = [] then
          (after, st.2 ++ (i.1 ++ ": ".toList ++ i.2 ++ crlf))
        else (after, st.2))
      (r, t) =
    (r, l.foldl
      (fun header i =>
        if i.1 = "content-length".toList ∧ r.header.value i.1 = [] then
          header ++ (i.1 ++ ": ".toList ++ QString.number (QString.size r.body) ++ crlf)
        else if r.header.value i.1 = [] then
          header ++ (i.1 ++ ": ".toList ++ i.2 ++ crlf)
        else header) t) := by
  induction l generalizing t with
  | nil => rfl
  | cons i l ih =>
    simp only [List.foldl_cons, QHash.readConst]
    by_cases h1 : i.1 = "content-length".toList ∧ r.header.value i.1 = []
    · rw [if_pos h1, if_pos h1]
      exact ih _
    · rw [if_neg h1, if_neg h1]
      by_cases h2 : r.header.value i.1 = []
      · rw [if_pos h2, if_pos h2]
        exact ih _
      · rw [if_neg h2, if_neg h2]
        exact ih _

theorem foldl_call_user (r : Response) (l : List (QString × QString)) (t : QString) :
    l.foldl
      (fun (st : Response × QString) j => (st.1, st.2 ++ (j.1 ++ ": ".toList ++ j.2 ++ crlf)))
      (r, t) =
    (r, l.foldl (fun header j => header ++ (j.1 ++ ": ".toList ++ j.2 ++ crlf)) t) := by
  induction l generalizing t with
  | nil => rfl
  | cons j l ih =>
    simp only [List.foldl_cons]
    exact ih _

theorem http_build_header_call_eq (r : Response) :
    http_build_header_call r = (r, http_build_header r) := by
  unfold http_build_header_call http_build_header
  simp only [foldl_call_default, foldl_call_user]

/-! ## Lemmas on the body lines -/

theorem length_consHead (c : Char) (l : List QString) (h : l ≠ []) :
    (QString.consHead c l).length = l.length := by
  cases l with
  | nil => exact absurd rfl h
  | cons p ps => rfl

theorem length_split_single (c : Char) (s : QString) :
    (QString.split [c] s).length = s.count c + 1 := by
  unfold QString.split
  induction s with
  | nil => rfl
  | cons d cs ih =>
    by_cases hd : c = d
    · subst hd
      simp [QString.splitGo, ih]
    · have hd' : ¬ d = c := fun h => hd h.symm
      have hne : QString.splitGo [c] 0 cs ≠ [] := by
        intro h
        rw [h] at ih
        simp at ih
      simp [QString.splitGo, hd, hd', length_consHead _ _ hne, ih]

theorem sum_map_add (a : Nat) (g : Nat → Nat) (l : List Nat) :
    (l.map (fun j => a + g j)).sum = l.length * a + (l.map g).sum := by
  induction l with
  | nil => simp
  | cons x xs ih =>
    simp only [List.map_cons, List.sum_cons, List.length_cons, ih]
    ring

theorem prefixSizes_cons (l : QString) (ls : List QString) :
    prefixSizes (l :: ls) = (ls.length + 1) * QString.size l + prefixSizes ls := by
  unfold prefixSizes
  rw [List.length_cons, List.range_succ_eq_map, List.map_cons, List.sum_cons, List.map_map]
  have hf : ((fun j => QString.size (List.take (j + 1) (l :: ls)).flatten) ∘ Nat.succ) =
      fun j => QString.size l + QString.size (List.take (j + 1) ls).flatten := by
    funext j
    simp [QString.size_append]
  rw [hf, sum_map_add, List.length_range]
  simp [QString.size_append, QString.size]
  ring

theorem weightedSizes_cons (l : QString) (ls : List QString) :
    weightedSizes (l :: ls) = (ls.length + 1) * QString.size l + weightedSizes ls := by
  unfold weightedSizes
  rw [List.length_cons, List.range_succ_eq_map, List.map_cons, List.sum_cons, List.map_map]
  have hf : ((fun i => (ls.length + 1 - i) * QString.size ((l :: ls).getD i [])) ∘ Nat.succ) =
      fun i => (ls.length - i) * QString.size (ls.getD i []) := by
    funext i
    simp
  rw [hf]
  simp

theorem prefixSizes_eq_weightedSizes (ls : List QString) : prefixSizes ls = weightedSizes ls := by
  induction ls with
  | nil => rfl
  | cons l ls ih => rw [prefixSizes_cons, weightedSizes_cons, ih]

theorem foldl_addBodyLine (ls : List QString) (r : Request) :
    (ls.foldl addBodyLine r).body = r.body ++ ls.flatten ∧
    (ls.foldl addBodyLine r).body_length =
      r.body_length + ls.length * QString.size r.body + prefixSizes ls := by
  induction ls generalizing r with
  | nil => simp [prefixSizes]
  | cons l ls ih =>
    obtain ⟨e1, e2⟩ := ih (addBodyLine r l)
    rw [List.foldl_cons, e1, e2, prefixSizes_cons]
    constructor
    · simp [addBodyLine]
    · simp only [addBodyLine, QString.size_append, List.length_cons]
      ring

theorem parseLines_pre (lines : List QString) (i : Nat) (r : Request)
    (hok : ∀ j line, (linesBefore lines)[j]? = some line →
      ':' ∈ line ∨ (i + j = 0 ∧ 2 ≤ line.count ' ')) :
    ∃ r1, parseLines i lines false r = some r1 ∧
      r1.body = r.body ++ (linesAfter lines).flatten ∧
      r1.body_length = r.body_length + (linesAfter lines).length * QString.size r.body
        + prefixSizes (linesAfter lines) := by
  induction lines generalizing i r with
  | nil => exact ⟨r, by simp [parseLines], by simp [linesAfter], by simp [linesAfter, prefixSizes]⟩
  | cons line rest ih =>
    by_cases hl : line = []
    · subst hl
      rw [parseLines_blank, parseLines_body]
      have ha : linesAfter ([] :: rest) = rest := by simp [linesAfter]
      rw [ha]
      exact ⟨_, rfl, foldl_addBodyLine rest r⟩
    · have hb : linesBefore (line :: rest) = line :: linesBefore rest := by
        simp [linesBefore, hl]
      have ha : linesAfter (line :: rest) = linesAfter rest := by
        simp [linesAfter, hl]
      have hrest : ∀ j line1, (linesBefore rest)[j]? = some line1 →
          ':' ∈ line1 ∨ (i + 1 + j = 0 ∧ 2 ≤ line1.count ' ') := by
        intro j line1 hj
        rcases hok (j + 1) line1 (by rw [hb]; simpa using hj) with h | h
        · exact Or.inl h
        · omega
      have hpos := QString.size_pos hl
      have hlt : ¬ QString.size line < 1 := by omega
      rw [ha]
      rcases hok 0 line (by rw [hb]; simp) with hcol | ⟨hi, hsp⟩
      · have hlen := length_split_single ':' line
        have hc : 0 < line.count ':' := List.count_pos_iff.mpr hcol
        obtain ⟨a, b, tl, hs⟩ : ∃ a b tl, QString.split [':'] line = a :: b :: tl := by
          match hq : QString.split [':'] line with
          | [] => rw [hq] at hlen; simp at hlen
          | [x] => rw [hq] at hlen; simp at hlen; omega
          | a :: b :: tl => exact ⟨a, b, tl, rfl⟩
        obtain ⟨r1, e1, e2, e3⟩ := ih (i + 1)
          { r with header := r.header.insert (QString.toLower a) (QString.trimmed b) } hrest
        refine ⟨r1, ?_, e2, e3⟩
        rw [← e1]
        have h2 : ¬ (tl.length + 1 + 1 < 2) := by omega
        simp [parseLines, hs, h2]
      · have hi0 : i = 0 := by omega
        subst hi0
        by_cases hcol : ':' ∈ line
        · have hlen := length_split_single ':' line
          have hc : 0 < line.count ':' := List.count_pos_iff.mpr hcol
          obtain ⟨a, b, tl, hs⟩ : ∃ a b tl, QString.split [':'] line = a :: b :: tl := by
            match hq : QString.split [':'] line with
            | [] => rw [hq] at hlen; simp at hlen
            | [x] => rw [hq] at hlen; simp at hlen; omega
            | a :: b :: tl => exact ⟨a, b, tl, rfl⟩
          obtain ⟨r1, e1, e2, e3⟩ := ih (0 + 1)
            { r with header := r.header.insert (QString.toLower a) (QString.trimmed b) } hrest
          refine ⟨r1, ?_, e2, e3⟩
          rw [← e1]
          have h2 : ¬ (tl.length + 1 + 1 < 2) := by omega
          simp [parseLines, hs, h2]
        · have hs : QString.split [':'] line = [line] := QString.split_single_self _ _ hcol
          have hlen := length_split_single ' ' line
          obtain ⟨m, u, p, tl, hf⟩ : ∃ m u p tl, QString.split [' '] line = m :: u :: p :: tl := by
            match hq : QString.split [' '] line with
            | [] => rw [hq] at hlen; simp at hlen
            | [x] => rw [hq] at hlen; simp at hlen; omega
            | [x, y] => rw [hq] at hlen; simp at hlen; omega
            | m :: u :: p :: tl => exact ⟨m, u, p, tl, rfl⟩
          obtain ⟨r1, e1, e2, e3⟩ := ih (0 + 1)
            { r with method := m, url := QString.trimmed u, proto := QString.trimmed p } hrest
          refine ⟨r1, ?_, e2, e3⟩
          rw [← e1]
          simp [parseLines, hs, hlt, hf]

theorem http_parse_body_sum (data : QString) (hrx : httpRx data = true)
    (hok : ∀ j line, (linesBefore (QString.split crlf data))[j]? = some line →
      ':' ∈ line ∨ (j = 0 ∧ 2 ≤ line.count ' ')) :
    ∃ r1, http_parse { Request.fresh with data := data } = some r1 ∧
      r1.body = (linesAfter (QString.split crlf data)).flatten ∧
      r1.body_length = prefixSizes (linesAfter (QString.split crlf data)) ∧
      r1.body_length = weightedSizes (linesAfter (QString.split crlf data)) := by
  obtain ⟨r1, e1, e2, e3⟩ := parseLines_pre (QString.split crlf data) 0
    { Request.fresh with data := data } (fun j line h => by simpa using hok j line h)
  refine ⟨r1, ?_, ?_, ?_, ?_⟩
  · simp only [http_parse, hrx]
    exact e1
  · simpa [Request.fresh] using e2
  · simpa [Request.fresh, QString.size] using e3
  · rw [← prefixSizes_eq_weightedSizes]
    simpa [Request.fresh, QString.size] using e3

/-! ## Lemmas on the lines of the built text -/

theorem lineName_append_colon (a rest : QString) (h : ':' ∉ a) :
    lineName (a ++ ':' :: rest) = a := by
  unfold lineName
  induction a with
  | nil => simp
  | cons c cs ih =>
    have hc : c ≠ ':' := fun e => h (by simp [e])
    have hcs : ':' ∉ cs := fun e => h (by simp [e])
    simpa [List.takeWhile_cons, hc] using ih hcs

theorem lineName_headerLine (f : QString × QString) (h : ':' ∉ f.1) :
    lineName (headerLine f) = f.1 :=
  lineName_append_colon f.1 _ h

theorem headerLine_ne_nil (f : QString × QString) : headerLine f ≠ [] := by
  simp [headerLine]

theorem takeWhile_headerLines (fs : List (QString × QString)) :
    (fs.map headerLine ++ [[], []]).takeWhile (fun l => decide (l ≠ [])) =
      fs.map headerLine := by
  induction fs with
  | nil => simp
  | cons f fs ih => simpa [List.takeWhile_cons, headerLine_ne_nil] using ih

theorem headerLinesOf_http_build_header (r : Response) (h1 : ¬ crlf <:+: r.proto)
    (h2 : ¬ crlf <:+: r.http_codes.value r.status)
    (h3 : ∀ f ∈ emittedFields r, ¬ crlf <:+: f.1 ∧ ¬ crlf <:+: f.2) :
    headerLinesOf (http_build_header r) = (emittedFields r).map headerLine := by
  rw [headerLinesOf, http_build_header_split r h1 h2 h3, List.drop_one, List.tail_cons,
    takeWhile_headerLines]

theorem map_lineName_headerLine (fs : List (QString × QString)) (h : ∀ f ∈ fs, ':' ∉ f.1) :
    (fs.map headerLine).map lineName = fs.map Prod.fst := by
  rw [List.map_map]
  exact List.map_congr_left (fun f hf => lineName_headerLine f (h f hf))

/-! ## Lemmas on the cursor as an `int` -/

theorem runHandler_sub (nextA nextB : Run → Option Run) (self : Nat)
    (h : ∀ v w1, nextA v = some w1 → nextB v = some w1) (p : next_f) (w w' : Run)
    (hA : runHandler nextA self p w = some w') : runHandler nextB self p w = some w' := by
  induction p generalizing w with
  | ret => exact hA
  | act f k ih => exact ih _ hA
  | next k ih =>
    cases hn : nextA { w with trace := w.trace ++ [Event.calls self] } with
    | none => simp [runHandler, hn] at hA
    | some w1 =>
      simp only [runHandler, hn] at hA
      simp only [runHandler, h _ _ hn]
      exact ih w1 hA
  | branch c t e iht ihe =>
    by_cases hc : c w.exchange = true
    · simp only [runHandler, hc, if_true] at hA ⊢
      exact iht w hA
    · simp only [runHandler, hc, if_false] at hA ⊢
      exact ihe w hA

theorem m_nextInt_sub (mw : List next_f) (fuel : Nat) (w w' : Run)
    (h : m_nextInt mw fuel w = some w') : m_next mw fuel w = some w' := by
  induction fuel generalizing w w' with
  | zero =>
    by_cases h1 : w.current_middleware ≥ INT_MAX
    · simp [m_nextInt, h1] at h
    · simpa [m_nextInt, m_next, h1] using h
  | succ fuel ih =>
    by_cases h1 : w.current_middleware ≥ INT_MAX
    · simp [m_nextInt, h1] at h
    · by_cases h2 : w.current_middleware + 1 ≥ mw.length
      · simpa [m_nextInt, m_next, h1, h2] using h
      · cases hh : mw[w.current_middleware + 1]? with
        | none => simp [m_nextInt, h1, h2, hh] at h
        | some p =>
          simp only [m_nextInt, h1, h2, hh, if_false] at h
          simp only [m_next, h2, hh, if_false]
          exact runHandler_sub _ _ _ (fun v w1 hv => ih v w1 hv) p _ w' h

theorem dispatchInt_sub (mw : List next_f) (c : Nat) (x : Exchange) (run : Run)
    (h : dispatchInt mw c x = some run) : dispatch mw c x = some run := by
  by_cases hpos : mw.length > 0
  · cases hh : mw[c]? with
    | none => simp [dispatchInt, hpos, hh] at h
    | some p =>
      simp only [dispatchInt, hpos, hh, if_true] at h
      simp only [dispatch, hpos, hh, if_true]
      exact runHandler_sub _ _ _ (fun v w1 hv => m_nextInt_sub mw _ v w1 hv) p _ run h
  · simpa [dispatchInt, dispatch, hpos] using h

theorem maxCallsFrom_lt (mw : List next_f) (c : Nat) (h : c < mw.length) :
    maxCallsFrom mw c = mw[c].maxCalls + maxCallsFrom mw (c + 1) := by
  unfold maxCallsFrom
  rw [List.drop_eq_getElem_cons h, List.map_cons, List.sum_cons]

theorem maxCallsFrom_ge (mw : List next_f) (c : Nat) (h : mw.length ≤ c) :
    maxCallsFrom mw c = 0 := by
  unfold maxCallsFrom
  rw [List.drop_eq_nil_of_le h]
  rfl

theorem runHandler_agree (nextA nextB : Run → Option Run) (self : Nat) (phi : Nat → Nat)
    (hnext : ∀ v : Run, phi v.current_middleware + 1 ≤ INT_MAX →
      nextA { v with trace := v.trace ++ [Event.calls self] } =
        nextB { v with trace := v.trace ++ [Event.calls self] } ∧
      ∀ w1, nextB { v with trace := v.trace ++ [Event.calls self] } = some w1 →
        phi w1.current_middleware ≤ phi v.current_middleware + 1)
    (p : next_f) (w : Run) (hw : phi w.current_middleware + p.maxCalls ≤ INT_MAX) :
    runHandler nextA self p w = runHandler nextB self p w ∧
    ∀ w', runHandler nextB self p w = some w' →
      phi w'.current_middleware ≤ phi w.current_middleware + p.maxCalls := by
  induction p generalizing w with
  | ret =>
    refine ⟨rfl, fun w' h => ?_⟩
    simp only [runHandler, Option.some.injEq] at h
    rw [← h]
    exact Nat.le_add_right _ _
  | act f k ih => exact ih { w with exchange := f w.exchange } hw
  | next k ih =>
    simp only [next_f.maxCalls] at hw
    obtain ⟨e1, e2⟩ := hnext w (by omega)
    cases hn : nextB { w with trace := w.trace ++ [Event.calls self] } with
    | none =>
      refine ⟨by simp only [runHandler, e1, hn], fun w' h => ?_⟩
      simp [runHandler, hn] at h
    | some w1 =>
      have hb := e2 w1 hn
      obtain ⟨i1, i2⟩ := ih w1 (by omega)
      refine ⟨by simp only [runHandler, e1, hn]; exact i1, fun w' h => ?_⟩
      simp only [runHandler, hn] at h
      have := i2 w' h
      simp only [next_f.maxCalls]
      omega
  | branch c t e iht ihe =>
    simp only [next_f.maxCalls] at hw
    by_cases hc : c w.exchange = true
    · obtain ⟨i1, i2⟩ := iht w (by omega)
      refine ⟨by simp only [runHandler, hc, if_true]; exact i1, fun w' h => ?_⟩
      simp only [runHandler, hc, if_true] at h
      have := i2 w' h
      simp only [next_f.maxCalls]
      omega
    · obtain ⟨i1, i2⟩ := ihe w (by omega)
      refine ⟨by simp only [runHandler, hc, if_false]; exact i1, fun w' h => ?_⟩
      simp only [runHandler, hc, if_false] at h
      have := i2 w' h
      simp only [next_f.maxCalls]
      omega

theorem m_nextInt_agree (mw : List next_f) (fuel : Nat) (w : Run)
    (hw : w.current_middleware + maxCallsFrom mw (w.current_middleware + 1) + 1 ≤ INT_MAX) :
    m_nextInt mw fuel w = m_next mw fuel w ∧
    ∀ w', m_next mw fuel w = some w' →
      w'.current_middleware + maxCallsFrom mw (w'.current_middleware + 1) ≤
        w.current_middleware + maxCallsFrom mw (w.current_middleware + 1) + 1 := by
  induction fuel generalizing w with
  | zero =>
    have h1 : ¬ w.current_middleware ≥ INT_MAX := by omega
    by_cases h2 : w.current_middleware + 1 ≥ mw.length
    · refine ⟨by simp [m_nextInt, m_next, h1], fun w' h => ?_⟩
      simp only [m_next, h2, if_true, Option.some.injEq] at h
      rw [← h]
      simp only
      rw [maxCallsFrom_ge mw (w.current_middleware + 1 + 1) (by omega)]
      omega
    · refine ⟨by simp [m_nextInt, m_next, h1], fun w' h => ?_⟩
      simp [m_next, h2] at h
  | succ fuel ih =>
    have h1 : ¬ w.current_middleware ≥ INT_MAX := by omega
    by_cases h2 : w.current_middleware + 1 ≥ mw.length
    · refine ⟨by simp [m_nextInt, m_next, h1, h2], fun w' h => ?_⟩
      simp only [m_next, h2, if_true, Option.some.injEq] at h
      rw [← h]
      simp only
      rw [maxCallsFrom_ge mw (w.current_middleware + 1 + 1) (by omega)]
      omega
    · have hlt : w.current_middleware + 1 < mw.length := by omega
      have hh : mw[w.current_middleware + 1]? = some mw[w.current_middleware + 1] :=
        List.getElem?_eq_getElem hlt
      have hsum := maxCallsFrom_lt mw (w.current_middleware + 1) hlt
      obtain ⟨i1, i2⟩ := runHandler_agree (m_nextInt mw fuel) (m_next mw fuel)
        (w.current_middleware + 1) (fun c => c + maxCallsFrom mw (c + 1))
        (fun v hv => ih { v with trace := v.trace ++ [Event.calls _] } hv)
        mw[w.current_middleware + 1]
        { w with current_middleware := w.current_middleware + 1,
                 trace := w.trace ++ [Event.enter (w.current_middleware + 1)] }
        (by simp only; omega)
      refine ⟨?_, fun w' h => ?_⟩
      · simp only [m_nextInt, m_next, h1, h2, hh, if_false]
        exact i1
      · simp only [m_next, h2, hh, if_false] at h
        have := i2 w' h
        simp only at this
        omega

theorem dispatchInt_eq (mw : List next_f) (x : Exchange) (hb : maxCallsFrom mw 0 ≤ INT_MAX) :
    dispatchInt mw 0 x = dispatch mw 0 x := by
  by_cases hpos : mw.length > 0
  · have hh : mw[0]? = some mw[0] := List.getElem?_eq_getElem hpos
    have hsum := maxCallsFrom_lt mw 0 hpos
    obtain ⟨i1, _⟩ := runHandler_agree (m_nextInt mw mw.length) (m_next mw mw.length) 0
      (fun c => c + maxCallsFrom mw (c + 1))
      (fun v hv => m_nextInt_agree mw mw.length
        { v with trace := v.trace ++ [Event.calls 0] } hv)
      mw[0] { current_middleware := 0, exchange := x, trace := [Event.enter 0] }
      (by simp only; omega)
    simp only [dispatchInt, dispatch, hpos, hh, if_true]
    exact i1
  · simp [dispatchInt, dispatch, hpos]

theorem runHandler_nextTimes (mw : List next_f) (fuel self : Nat) (hlen : mw.length ≤ 1)
    (k : Nat) (w : Run) (h1 : w.current_middleware ≤ INT_MAX)
    (h2 : INT_MAX < w.current_middleware + k) :
    runHandler (m_nextInt mw fuel) self (nextTimes k) w = none := by
  induction k generalizing w with
  | zero => omega
  | succ k ih =>
    by_cases hmax : w.current_middleware ≥ INT_MAX
    · have : m_nextInt mw fuel { w with trace := w.trace ++ [Event.calls self] } = none := by
        cases fuel <;> simp [m_nextInt, hmax]
      simp only [nextTimes, runHandler, this]
    · have hge : w.current_middleware + 1 ≥ mw.length := by omega
      have : m_nextInt mw fuel { w with trace := w.trace ++ [Event.calls self] } =
          some { w with current_middleware := w.current_middleware + 1,
                        trace := w.trace ++ [Event.calls self] } := by
        cases fuel <;> simp [m_nextInt, hmax, hge]
      simp only [nextTimes, runHandler, this]
      exact ih _ (by simp only; omega) (by simp only; omega)

theorem dispatchInt_nextTimes (k : Nat) (x : Exchange) (hk : INT_MAX < k) :
    dispatchInt [nextTimes k] 0 x = none := by
  have h := runHandler_nextTimes [nextTimes k] 1 0 (by simp) k
    { current_middleware := 0, exchange := x, trace := [Event.enter 0] }
    (Nat.zero_le _) (by simpa using hk)
  simpa [dispatchInt] using h

/-! ## Lemmas on the events with the cursor as an `int` -/

theorem respondInt_sub (mw : List next_f) (c : Nat) (client : Client)
    (out : Response × QString × List Event) (h : respondInt mw c client = some out) :
    respond mw c client = some out := by
  unfold respondInt at h
  cases hd : dispatchInt mw c ⟨client.request, client.response⟩ with
  | none => simp [hd] at h
  | some run =>
    simp only [hd] at h
    simp only [respond, dispatchInt_sub mw c _ run hd]
    exact h

theorem respondInt_eq (mw : List next_f) (client : Client)
    (hb : maxCallsFrom mw 0 ≤ INT_MAX) : respondInt mw 0 client = respond mw 0 client := by
  simp only [respondInt, respond, dispatchInt_eq mw _ hb]

theorem respondInt_some (mw : List next_f) (c : Nat) (client : Client) (final : Response)
    (data : QString) (tr : List Event) (h : respondInt mw c client = some (final, data, tr)) :
    ∃ run, dispatchInt mw c ⟨client.request, client.response⟩ = some run ∧ tr = run.trace ∧
      data = http_build_header final ++ final.body ∧
      final.status =
        (if run.exchange.response.status = 0 then 200 else run.exchange.response.status) ∧
      final.proto = run.exchange.request.proto ∧
      final.method = run.exchange.request.method ∧
      final.body = run.exchange.response.body := by
  unfold respondInt at h
  cases hd : dispatchInt mw c ⟨client.request, client.response⟩ with
  | none => simp [hd] at h
  | some run =>
    simp only [hd, Option.some.injEq, Prod.mk.injEq] at h
    obtain ⟨h1, h2, h3⟩ := h
    refine ⟨run, rfl, h3.symm, ?_, ?_, ?_, ?_, ?_⟩
    · rw [← h2, ← h1]
    · rw [← h1]
      by_cases hst : run.exchange.response.status = 0 <;> simp [hst]
    · rw [← h1]
      by_cases hst : run.exchange.response.status = 0 <;> simp [hst]
    · rw [← h1]
      by_cases hst : run.exchange.response.status = 0 <;> simp [hst]
    · rw [← h1]
      by_cases hst : run.exchange.response.status = 0 <;> simp [hst]

theorem readyReadInt_some (s : Server) (socket_id : Int) (bytes : QString) (s' : Server)
    (h : readyReadInt s socket_id bytes = some s') :
    ∃ client request, s.client? socket_id = some client ∧
      receive client.request bytes = some request ∧
      ((complete request = false ∧
          s' = { s with connections :=
            (QHash.setIn socket_id { client with request := request } s.connections) }) ∨
        (complete request = true ∧ ∃ resp data tr,
          respondInt s.m_middleware s.current_middleware { client with request := request } =
            some (resp, data, tr) ∧
          s' = { s with
            current_middleware := 0,
            connections := s.connections.filter (fun e => e.1 ≠ socket_id),
            written := s.written ++ [(socket_id, data)],
            trace := s.trace ++ tr })) := by
  unfold readyReadInt at h
  cases hc : s.client? socket_id with
  | none => simp [hc] at h
  | some client =>
    cases hr : receive client.request bytes with
    | none => simp [hc, hr] at h
    | some request =>
      refine ⟨client, request, rfl, hr, ?_⟩
      by_cases hcomp : complete request = true
      · right
        refine ⟨hcomp, ?_⟩
        cases hresp : respondInt s.m_middleware s.current_middleware
            { client with request := request } with
        | none => simp [hc, hr, hcomp, hresp] at h
        | some out =>
          obtain ⟨resp, data, tr⟩ := out
          simp only [hc, hr, hcomp, hresp, Bool.not_true, Bool.false_eq_true, if_false,
            Option.some.injEq] at h
          exact ⟨resp, data, tr, rfl, h.symm⟩
      · left
        have hf : complete request = false := by simpa using hcomp
        simp only [hc, hr, hf, Bool.not_false, if_true, Option.some.injEq] at h
        exact ⟨hf, h.symm⟩

theorem readyReadInt_incomplete (s : Server) (socket_id : Int) (bytes : QString)
    (client : Client) (request : Request) (hc : s.client? socket_id = some client)
    (hr : receive client.request bytes = some request) (hi : complete request = false) :
    readyReadInt s socket_id bytes = some
      { s with connections :=
          QHash.setIn socket_id { client with request := request } s.connections } := by
  simp [readyReadInt, hc, hr, hi]

theorem readyReadInt_complete (s : Server) (socket_id : Int) (bytes : QString)
    (client : Client) (request : Request) (hc : s.client? socket_id = some client)
    (hr : receive client.request bytes = some request) (hcomplete : complete request = true)
    (hcur : s.current_middleware = 0) (hb : maxCallsFrom s.m_middleware 0 ≤ INT_MAX) :
    ∃ s1, readyReadInt s socket_id bytes = some s1 ∧ s1.current_middleware = 0 := by
  obtain ⟨run, _, hrun, _⟩ := dispatch_invoked s.m_middleware ⟨request, client.response⟩
  have hd : dispatchInt s.m_middleware 0 ⟨request, client.response⟩ = some run := by
    rw [dispatchInt_eq _ _ hb]
    exact hrun
  have h : ∃ s1, readyReadInt s socket_id bytes = some s1 := by
    simp [readyReadInt, hc, hr, hcomplete, hcur, respondInt, hd]
  obtain ⟨s1, h1⟩ := h
  obtain ⟨client1, request1, hc1, hr1, hcase⟩ := readyReadInt_some s socket_id bytes s1 h1
  rw [hc, Option.some.injEq] at hc1
  subst hc1
  rw [hr, Option.some.injEq] at hr1
  subst hr1
  rcases hcase with ⟨hf, _⟩ | ⟨_, resp, data, tr, _, rfl⟩
  · rw [hcomplete] at hf
    exact absurd hf (by simp)
  · exact ⟨_, h1, rfl⟩

theorem readyReadInt_undefined (s : Server) (socket_id : Int) (bytes : QString)
    (client : Client) (request : Request) (hc : s.client? socket_id = some client)
    (hr : receive client.request bytes = some request) (hcomplete : complete request = true)
    (hd : dispatchInt s.m_middleware s.current_middleware ⟨request, client.response⟩ = none) :
    readyReadInt s socket_id bytes = none := by
  simp [readyReadInt, hc, hr, hcomplete, respondInt, hd]

theorem stepInt_cursor (s : Server) (input : Input) (s' : Server)
    (h : stepInt s input = some s') (h0 : s.current_middleware = 0) :
    s'.current_middleware = 0 ∧ s'.m_middleware = s.m_middleware := by
  cases input with
  | connect socket_id =>
    simp only [stepInt, Option.some.injEq] at h
    rw [← h]
    exact ⟨h0, rfl⟩
  | bytes socket_id chunk =>
    obtain ⟨client, request, _, _, hcase⟩ := readyReadInt_some s socket_id chunk s' h
    rcases hcase with ⟨_, rfl⟩ | ⟨_, resp, data, tr, _, rfl⟩
    · exact ⟨h0, rfl⟩
    · exact ⟨rfl, rfl⟩
  | closed socket_id =>
    simp only [stepInt, peerClosed, Option.some.injEq] at h
    rw [← h]
    exact ⟨h0, rfl⟩

theorem stepsInt_cursor (inputs : List Input) :
    ∀ (s s' : Server), stepsInt s inputs = some s' → s.current_middleware = 0 →
      s'.current_middleware = 0 ∧ s'.m_middleware = s.m_middleware := by
  induction inputs with
  | nil =>
    intro s s' h h0
    simp only [stepsInt, Option.some.injEq] at h
    rw [← h]
    exact ⟨h0, rfl⟩
  | cons input rest ih =>
    intro s s' h h0
    simp only [stepsInt] at h
    cases hs : stepInt s input with
    | none => simp [hs] at h
    | some s1 =>
      simp only [hs] at h
      obtain ⟨e1, e2⟩ := stepInt_cursor s input s1 hs h0
      obtain ⟨e3, e4⟩ := ih s1 s' h e1
      exact ⟨e3, e4.trans e2⟩

theorem readyReadInt_serverLoop :
    readyReadInt (newConnection serverLoop 7) 7 textFoo = none :=
  readyReadInt_undefined (newConnection serverLoop 7) 7 textFoo
    ⟨Request.fresh, Response.fresh defaultsPlain codesOK⟩ requestFoo rfl rfl (by decide)
    (dispatchInt_nextTimes 2147483648 _ (by unfold INT_MAX; omega))

/-! # Claims -/

/-- C3: in a registry of `n` handlers, let `k < n`, let the handlers before
`k` each call their continuation exactly once, and let handler `k` never call
it (or let `k` be the last handler). Then one dispatch returns, and the
handlers it invokes are exactly `0, 1, ..., k`, each once, in this order. -/
theorem dispatch_chain (m_middleware : List next_f) (k : Nat) (x : Exchange)
    (hk : k < m_middleware.length)
    (h1 : ∀ i h, i < k → m_middleware[i]? = some h → h.callsOnce)
    (h2 : (∀ h, m_middleware[k]? = some h → h.neverCalls) ∨ k + 1 = m_middleware.length) :
    ∃ run, dispatch m_middleware 0 x = some run ∧ invoked run.trace = List.range (k + 1) := by
  have hpos : m_middleware.length > 0 := by omega
  have hh : m_middleware[0]? = some m_middleware[0] := List.getElem?_eq_getElem hpos
  obtain ⟨w', e1, e2⟩ := runHandler_chain m_middleware k hk h1 h2 k 0 (by omega)
    m_middleware.length { current_middleware := 0, exchange := x, trace := [Event.enter 0] }
    m_middleware[0] hh rfl (by omega)
  refine ⟨w', by simpa [dispatch, hpos, hh] using e1, ?_⟩
  rw [e2, invoked_enter, List.range_eq_range', List.range'_succ]
  simp

/-- C3, the instance of the claim: in `[h0, h1, h2]`, `h0` continues and `h1`
does not; `h0` then `h1` run and `h2` never runs. -/
theorem dispatch_chain_witness :
    (1 < [next_f.act id (.next .ret), .ret, .next .ret].length ∧
      (∀ i h, i < 1 → [next_f.act id (.next .ret), .ret, .next .ret][i]? = some h →
        h.callsOnce) ∧
      ((∀ h, [next_f.act id (.next .ret), .ret, .next .ret][1]? = some h → h.neverCalls) ∨
        1 + 1 = [next_f.act id (.next .ret), .ret, .next .ret].length)) ∧
    ∃ run, dispatch [next_f.act id (.next .ret), .ret, .next .ret] 0 exchangeHello = some run ∧
      invoked run.trace = List.range (1 + 1) :=
  have h1 : ∀ i h, i < 1 → [next_f.act id (.next .ret), .ret, .next .ret][i]? = some h →
      h.callsOnce := by
    intro i h hi hh
    have : i = 0 := by omega
    subst this
    simp only [List.getElem?_cons_zero, Option.some.injEq] at hh
    subst hh
    exact ⟨rfl, rfl⟩
  have h2 : ∀ h, [next_f.act id (.next .ret), .ret, .next .ret][1]? = some h →
      h.neverCalls := by
    intro h hh
    simp only [List.getElem?_cons_succ, List.getElem?_cons_zero, Option.some.injEq] at hh
    subst hh
    rfl
  ⟨⟨by decide, h1, Or.inl h2⟩,
    dispatch_chain [next_f.act id (.next .ret), .ret, .next .ret] 1 exchangeHello (by decide)
      h1 (Or.inl h2)⟩

/-- C4, the claim as stated fails: in `[h0, h1, h2]`, `h0` calls its
continuation twice and `h1` never calls it; `h1` is invoked, and `h2`, of
greater index, is invoked all the same, by the second call of `h0`. -/
theorem dispatch_resumed_after_stop :
    (dispatch [next_f.next (.next .ret), .ret, .ret] 0 exchangeHello).map (fun run => run.trace)
      = some [Event.enter 0, Event.calls 0, Event.enter 1, Event.calls 0, Event.enter 2] ∧
    next_f.neverCalls .ret :=
  ⟨by decide, rfl⟩

/-- C4, as amended: when no handler before `k` calls its continuation more
than once and handler `k` never calls it, one dispatch returns and invokes no
handler of index greater than `k`. -/
theorem dispatch_stops (m_middleware : List next_f) (k : Nat) (x : Exchange)
    (hk : k < m_middleware.length)
    (h1 : ∀ i h, i < k → m_middleware[i]? = some h → h.maxCalls ≤ 1)
    (h2 : ∀ h, m_middleware[k]? = some h → h.neverCalls) :
    ∃ run, dispatch m_middleware 0 x = some run ∧ ∀ j ∈ invoked run.trace, j ≤ k := by
  have hpos : m_middleware.length > 0 := by omega
  have hh : m_middleware[0]? = some m_middleware[0] := List.getElem?_eq_getElem hpos
  have ht : ∀ j ∈ invoked [Event.enter 0], j ≤ k := by
    intro j hj
    rw [invoked_enter, List.mem_singleton] at hj
    omega
  simp only [dispatch, hpos, if_true, hh]
  by_cases hk0 : k = 0
  · subst hk0
    obtain ⟨w', e1, _, e3⟩ := runHandler_no_call (m_next m_middleware m_middleware.length) 0
      m_middleware[0] (h2 _ hh) { current_middleware := 0, exchange := x, trace := [Event.enter 0] }
    exact ⟨w', e1, by rw [e3]; exact ht⟩
  · obtain ⟨w', e1, _, e3⟩ := runHandler_bounded (m_next m_middleware m_middleware.length) 0
      m_middleware[0] k (h1 0 _ (by omega) hh)
      { current_middleware := 0, exchange := x, trace := [Event.enter 0] } (Nat.zero_le k) ht
      (fun w1 hw1 hw1t => by
        simp only at hw1
        exact m_next_bounded m_middleware k hk h1 h2 _ w1 (by omega) (by omega) hw1t)
    exact ⟨w', e1, e3⟩

/-- C4, an instance of the amended claim: in `[h0, h1, h2]`, `h0` calls its
continuation once and `h1` never. -/
theorem dispatch_stops_witness :
    (1 < [next_f.next .ret, .ret, .ret].length ∧
      (∀ i h, i < 1 → [next_f.next .ret, .ret, .ret][i]? = some h → h.maxCalls ≤ 1) ∧
      (∀ h, [next_f.next .ret, .ret, .ret][1]? = some h → h.neverCalls)) ∧
    ∃ run, dispatch [next_f.next .ret, .ret, .ret] 0 exchangeHello = some run ∧
      ∀ j ∈ invoked run.trace, j ≤ 1 :=
  have h1 : ∀ i h, i < 1 → [next_f.next .ret, .ret, .ret][i]? = some h → h.maxCalls ≤ 1 := by
    intro i h hi hh
    have : i = 0 := by omega
    subst this
    simp only [List.getElem?_cons_zero, Option.some.injEq] at hh
    subst hh
    exact Nat.le_refl 1
  have h2 : ∀ h, [next_f.next .ret, .ret, .ret][1]? = some h → h.neverCalls := by
    intro h hh
    simp only [List.getElem?_cons_succ, List.getElem?_cons_zero, Option.some.injEq] at hh
    subst hh
    rfl
  ⟨⟨by decide, h1, h2⟩,
    dispatch_stops [next_f.next .ret, .ret, .ret] 1 exchangeHello (by decide) h1 h2⟩

/-- C5, the code at the failing input: for the body of the single character
U+00E9, whose encoding has the two bytes that `toStdString()` hands to the
socket, the line written is `content-length: 1`, the size of the body in
UTF-16 code units, where the byte length of the body is 2. (For the body
`hello` of the claim's instance the line is `content-length: 5`.) -/
theorem http_build_header_content_length_units :
    ("content-length".toList ∈ responseAccent.default_headers.keys ∧
      responseAccent.header.find? "content-length".toList = none ∧
      responseAccent.http_codes.find? responseAccent.status = some "OK".toList) ∧
    QString.toStdString responseAccent.body = [0xC3, 0xA9] ∧
    (QString.toStdString responseAccent.body).length = 2 ∧
    QString.size responseAccent.body = 1 ∧
    http_build_header responseAccent =
      "HTTP/1.1 200 OK\r\ncontent-length: 1\r\ncontent-type: text/plain\r\n\r\n".toList ∧
    http_build_header responseHello =
      "HTTP/1.1 200 OK\r\ncontent-length: 5\r\ncontent-type: text/plain\r\n\r\n".toList := by
  decide

/-- C6, the claim as stated fails: the user header map sets `content-type`
(to the empty value), the default line for `content-type` is written all the
same, and the name stands on two lines. A name also stands on two lines when
a user value holds a line terminator (`x-a` with the value
`b CRLF x-a: c`), and when a user name holds a colon (the names `x` and
`x: y`). -/
theorem http_build_header_name_twice :
    ("content-type".toList ∈ responseEmptyType.header.keys ∧
      http_build_header responseEmptyType =
        ("HTTP/1.1 200 OK\r\ncontent-length: 5\r\ncontent-type: text/plain\r\n"
          ++ "content-type: \r\n\r\n").toList ∧
      (headerLinesOf (http_build_header responseEmptyType)).map lineName =
        ["content-length".toList, "content-type".toList, "content-type".toList]) ∧
    (responseInject.header.keys = ["x-a".toList] ∧
      (headerLinesOf (http_build_header responseInject)).map lineName =
        ["content-length".toList, "content-type".toList, "x-a".toList, "x-a".toList]) ∧
    (responseColon.header.keys = ["x".toList, "x: y".toList] ∧
      (headerLinesOf (http_build_header responseColon)).map lineName =
        ["content-length".toList, "content-type".toList, "x".toList, "x".toList]) := by
  decide

/-- C6, as amended: the built text is the status line, the header lines and
a blank line; a default line for a default header name `k` is written
exactly when the user headers hold no non-empty value for `k`, with the
default value, or the size of the body for `content-length`; the user
entries follow, each once. When no user entry of a default header name has an
empty value, no written name holds a colon, and neither the protocol, the
reason phrase nor a written name or value holds a line terminator, the lines
of the text between the status line and the blank line are these `k: v`, each
user entry stands on exactly one of them, and no header name stands on two
lines. -/
theorem http_build_header_fields (r : Response) :
    http_build_header r = statusLine r ++ ((emittedLines r).flatten ++ crlf) ∧
    emittedLines r = (defaultFields r ++ r.header.entries).map headerField ∧
    (∀ k ∈ r.default_headers.keys,
      (k ∈ (defaultFields r).map Prod.fst ↔ r.header.value k = [])) ∧
    (∀ f ∈ defaultFields r,
      f.2 = if f.1 = "content-length".toList then QString.number (QString.size r.body)
        else r.default_headers.value f.1) ∧
    (∀ e ∈ r.header.entries, r.header.entries.count e = 1) ∧
    ((∀ e ∈ r.header.entries, e.1 ∈ r.default_headers.keys → e.2 ≠ []) →
      ¬ crlf <:+: r.proto → ¬ crlf <:+: r.http_codes.value r.status →
      (∀ f ∈ emittedFields r, ':' ∉ f.1 ∧ ¬ crlf <:+: f.1 ∧ ¬ crlf <:+: f.2) →
      headerLinesOf (http_build_header r) =
        (defaultFields r ++ r.header.entries).map headerLine ∧
      ((headerLinesOf (http_build_header r)).map lineName).Nodup ∧
      (∀ e ∈ r.header.entries,
        (headerLinesOf (http_build_header r)).count (headerLine e) = 1) ∧
      ∀ e ∈ r.header.entries, e.1 ∉ (defaultFields r).map Prod.fst) := by
  refine ⟨http_build_header_eq r, rfl, ?_, ?_, ?_, ?_⟩
  · intro k hk
    constructor
    · intro h
      obtain ⟨f, hf, rfl⟩ := List.mem_map.mp h
      obtain ⟨i, _, hv, rfl⟩ := (mem_defaultFields r f).mp hf
      exact hv
    · intro hv
      obtain ⟨i, hi, rfl⟩ := List.mem_map.mp hk
      exact List.mem_map.mpr ⟨_, (mem_defaultFields r _).mpr ⟨i, hi, hv, rfl⟩, rfl⟩
  · intro f hf
    obtain ⟨i, hi, _, rfl⟩ := (mem_defaultFields r f).mp hf
    have : r.default_headers.value i.1 = i.2 := QHash.value_of_mem _ (by simpa using hi)
    simp only [this]
  · intro e he
    exact count_eq_one_of_mem_nodup (List.Nodup.of_map _ r.header.nodup) he
  · intro h h1 h2 h3
    have hn := emitted_names_nodup r h
    have hl := headerLinesOf_http_build_header r h1 h2 (fun f hf => (h3 f hf).2)
    have hm := map_lineName_headerLine (emittedFields r) (fun f hf => (h3 f hf).1)
    have hnl : ((headerLinesOf (http_build_header r)).map lineName).Nodup := by
      rw [hl, hm]
      exact hn
    refine ⟨hl, hnl, ?_, ?_⟩
    · intro e he
      refine count_eq_one_of_mem_nodup (List.Nodup.of_map _ hnl) ?_
      rw [hl]
      exact List.mem_map.mpr ⟨e, by simp [emittedFields, he], rfl⟩
    · intro e he hin
      rw [emittedFields, List.map_append] at hn
      exact (List.disjoint_of_nodup_append hn) hin (List.mem_map.mpr ⟨e, he, rfl⟩)

/-- C6, an instance of the amended claim: the user value `text/html` replaces
the default `content-type`. -/
theorem http_build_header_fields_witness :
    ((∀ e ∈ responseHtml.header.entries,
        e.1 ∈ responseHtml.default_headers.keys → e.2 ≠ []) ∧
      ¬ crlf <:+: responseHtml.proto ∧
      ¬ crlf <:+: responseHtml.http_codes.value responseHtml.status ∧
      ∀ f ∈ emittedFields responseHtml, ':' ∉ f.1 ∧ ¬ crlf <:+: f.1 ∧ ¬ crlf <:+: f.2) ∧
    ((headerLinesOf (http_build_header responseHtml)).map lineName).Nodup ∧
    headerLinesOf (http_build_header responseHtml) =
      ["content-length: 5".toList, "content-type: text/html".toList] ∧
    http_build_header responseHtml =
      "HTTP/1.1 200 OK\r\ncontent-length: 5\r\ncontent-type: text/html\r\n\r\n".toList :=
  have h : ∀ e ∈ responseHtml.header.entries,
      e.1 ∈ responseHtml.default_headers.keys → e.2 ≠ [] := by decide
  have h1 : ¬ crlf <:+: responseHtml.proto := by decide
  have h2 : ¬ crlf <:+: responseHtml.http_codes.value responseHtml.status := by decide
  have h3 : ∀ f ∈ emittedFields responseHtml,
      ':' ∉ f.1 ∧ ¬ crlf <:+: f.1 ∧ ¬ crlf <:+: f.2 := by decide
  ⟨⟨h, h1, h2, h3⟩, ((http_build_header_fields responseHtml).2.2.2.2.2 h h1 h2 h3).2.1,
    by decide, by decide⟩

/-- C7, the code at the failing input: for the header line
`Host: localhost:8080`, `http_parse` stores `localhost` under `host`, the text
between the first and the second colon. -/
theorem http_parse_host_port :
    (http_parse { Request.fresh with
        data := "GET / HTTP/1.1\r\nHost: localhost:8080\r\n\r\n".toList }).map
      (fun r => r.header.find? "host".toList) = some (some "localhost".toList) := by
  decide

/-- C8, the claim as stated fails on its own instance: for the single chunk
`GET /foo HTTP/1.1 CRLF Host: x CRLF`, which holds no blank line, the
completeness check holds on the first event and a response is written. -/
theorem complete_without_blank_line :
    ¬ (crlf ++ crlf) <:+: "GET /foo HTTP/1.1\r\nHost: x\r\n".toList ∧
    (receive Request.fresh "GET /foo HTTP/1.1\r\nHost: x\r\n".toList).map complete = some true ∧
    (readyRead (newConnection serverEmpty 7) 7 "GET /foo HTTP/1.1\r\nHost: x\r\n".toList).map
        (fun s => s.written) =
      some [(7, "HTTP/1.1 200 OK\r\ncontent-length: 0\r\ncontent-type: text/plain\r\n\r\n".toList)] := by
  decide

/-- C8, as amended: chunks are delivered to a fresh connection, and after
every chunk the accumulated text is a request line followed by complete
header lines, without a blank line, whose last `content-length` line has a
positive value. Then every event returns without the completeness check
holding: nothing is written, no handler runs, and the connection stays. -/
theorem feed_headers_only (s : Server) (socket_id : Int) (chunks : List QString)
    (h : ∀ j, j < chunks.length → HeaderOnly ((chunks.take (j + 1)).flatten)) :
    ∃ s', feed (newConnection s socket_id) socket_id chunks = some s' ∧
      s'.written = s.written ∧ s'.trace = s.trace ∧ ∃ c, s'.client? socket_id = some c := by
  obtain ⟨s', e1, e2, e3, e4⟩ := feed_headers_only_aux socket_id chunks
    (newConnection s socket_id)
    { request := Request.fresh, response := Response.fresh s.default_headers s.http_codes }
    (by simp [Server.client?, newConnection, QHash.findIn_setIn]) rfl
    (fun j hj => by simpa [Request.fresh] using h j hj)
  exact ⟨s', e1, e2, e3, e4⟩

/-- C8, an instance of the amended claim: the request line with
`Content-Length: 5`, then `Host: x`, and no blank line. -/
theorem feed_headers_only_witness :
    (∀ j, j < chunksHeaders.length → HeaderOnly ((chunksHeaders.take (j + 1)).flatten)) ∧
    ∃ s', feed (newConnection serverEmpty 7) 7 chunksHeaders = some s' ∧
      s'.written = serverEmpty.written ∧ s'.trace = serverEmpty.trace ∧
      ∃ c, s'.client? 7 = some c :=
  have h : ∀ j, j < chunksHeaders.length → HeaderOnly ((chunksHeaders.take (j + 1)).flatten) := by
    intro j hj
    have hj' : j = 0 ∨ j = 1 := by
      simp only [chunksHeaders, List.length_cons, List.length_nil] at hj
      omega
    rcases hj' with rfl | rfl
    · exact ⟨"POST".toList, "/x".toList, '1', '1', [("Content-Length".toList, "5".toList)],
        "Content-Length".toList, "5".toList,
        ⟨⟨'P', "OST".toList, rfl, by decide⟩, ⟨"x".toList, rfl⟩, by decide, by decide,
          by decide, by decide, by decide, by decide, by decide⟩,
        by decide, by decide, by decide⟩
    · exact ⟨"POST".toList, "/x".toList, '1', '1',
        [("Content-Length".toList, "5".toList), ("Host".toList, "x".toList)],
        "Content-Length".toList, "5".toList,
        ⟨⟨'P', "OST".toList, rfl, by decide⟩, ⟨"x".toList, rfl⟩, by decide, by decide,
          by decide, by decide, by decide, by decide, by decide⟩,
        by decide, by decide, by decide⟩
  ⟨h, feed_headers_only serverEmpty 7 chunksHeaders h⟩

/-- C9: a `readyRead` event completes the request, with the cursor at 0 (the
value it has at the start of every callback). Whenever the callback returns,
the handlers have run and returned, and the final response, the one
`respondInt` builds the payload from, has the status the handlers left, or
200 when they left it at 0, the protocol and the method of the request as the
handlers left it, and the body the handlers left; with an empty registry
request and response are untouched; the payload written is the header built
for this response followed by its body, the cursor is 0 again and the
connection is removed. The callback returns when the handlers together call
their continuations at most `INT_MAX` times. -/
theorem readyRead_response (s : Server) (socket_id : Int) (bytes : QString) (client : Client)
    (request : Request) (hc : s.client? socket_id = some client)
    (hr : receive client.request bytes = some request) (hcomplete : complete request = true)
    (hcur : s.current_middleware = 0) :
    (∀ s1, readyReadInt s socket_id bytes = some s1 →
      ∃ run final,
        dispatchInt s.m_middleware 0 ⟨request, client.response⟩ = some run ∧
        respondInt s.m_middleware 0 { client with request := request } =
          some (final, http_build_header final ++ final.body, run.trace) ∧
        final.status =
          (if run.exchange.response.status = 0 then 200 else run.exchange.response.status) ∧
        final.proto = run.exchange.request.proto ∧
        final.method = run.exchange.request.method ∧
        final.body = run.exchange.response.body ∧
        (s.m_middleware = [] → run.exchange = ⟨request, client.response⟩) ∧
        s1 =
          { s with
            current_middleware := 0,
            connections := s.connections.filter (fun e => e.1 ≠ socket_id),
            written := s.written ++ [(socket_id, http_build_header final ++ final.body)],
            trace := s.trace ++ run.trace }) ∧
    (maxCallsFrom s.m_middleware 0 ≤ INT_MAX →
      ∃ s1, readyReadInt s socket_id bytes = some s1) := by
  constructor
  · intro s1 h1
    obtain ⟨client1, request1, hc1, hr1, hcase⟩ := readyReadInt_some s socket_id bytes s1 h1
    rw [hc, Option.some.injEq] at hc1
    subst hc1
    rw [hr, Option.some.injEq] at hr1
    subst hr1
    rcases hcase with ⟨hf, _⟩ | ⟨_, final, data, tr, hresp, rfl⟩
    · rw [hcomplete] at hf
      exact absurd hf (by simp)
    · rw [hcur] at hresp
      obtain ⟨run, hd, htr, hdata, e1, e2, e3, e4⟩ := respondInt_some _ _ _ _ _ _ hresp
      subst htr
      subst hdata
      refine ⟨run, final, hd, hresp, e1, e2, e3, e4, ?_, rfl⟩
      intro hnil
      rw [hnil] at hd
      simp only [dispatchInt, List.length_nil, gt_iff_lt, Nat.lt_irrefl, if_false,
        Option.some.injEq] at hd
      rw [← hd]
  · intro hb
    obtain ⟨s1, h1, _⟩ := readyReadInt_complete s socket_id bytes client request hc hr
      hcomplete hcur hb
    exact ⟨s1, h1⟩

/-- C9, the instance of the claim: the request
`GET /foo HTTP/1.1 CRLF Host: x CRLF CRLF` on a server without handlers is
complete, the callback returns, and the response has status 200, protocol
`HTTP/1.1`, method `GET` and an empty body. -/
theorem readyRead_response_witness :
    ((newConnection serverEmpty 7).client? 7 =
        some ⟨Request.fresh, Response.fresh defaultsPlain codesOK⟩ ∧
      receive Request.fresh textFoo = some requestFoo ∧ complete requestFoo = true ∧
      (newConnection serverEmpty 7).current_middleware = 0) ∧
    (∃ s1, readyReadInt (newConnection serverEmpty 7) 7 textFoo = some s1) ∧
    (respondInt [] 0 ⟨requestFoo, Response.fresh defaultsPlain codesOK⟩).map
        (fun out => (out.1.status, out.1.proto, out.1.method, out.1.body, out.2.1)) =
      some (200, "HTTP/1.1".toList, "GET".toList, [],
        "HTTP/1.1 200 OK\r\ncontent-length: 0\r\ncontent-type: text/plain\r\n\r\n".toList) ∧
    (readyReadInt (newConnection serverEmpty 7) 7 textFoo).map (fun s => s.written) =
      some [(7,
        "HTTP/1.1 200 OK\r\ncontent-length: 0\r\ncontent-type: text/plain\r\n\r\n".toList)] :=
  ⟨⟨rfl, rfl, by decide, rfl⟩,
    (readyRead_response (newConnection serverEmpty 7) 7 textFoo
      ⟨Request.fresh, Response.fresh defaultsPlain codesOK⟩ requestFoo rfl rfl (by decide)
      rfl).2 (by decide),
    by decide, by decide⟩

/-- C10, the claim as stated fails: for the status 999, which the table does
not hold, `http_build_header` returns a status line whose reason phrase is
empty. -/
theorem http_build_header_unknown_status :
    response999.http_codes.find? response999.status = none ∧
    http_build_header response999 =
      "HTTP/1.1 999 \r\ncontent-length: 5\r\ncontent-type: text/plain\r\n\r\n".toList := by
  decide

/-- C10, as amended: for a status code without an entry in the table,
`http_build_header` returns a text (it has no failure) whose status line is
`<proto> SP <status> SP CRLF`, with an empty reason phrase. -/
theorem http_build_header_no_reason (r : Response)
    (h : r.http_codes.find? r.status = none) :
    http_build_header r =
      (r.proto ++ " ".toList ++ QString.number r.status ++ " ".toList ++ crlf) ++
        ((emittedLines r).flatten ++ crlf) := by
  rw [http_build_header_eq, statusLine, QHash.value, h]
  simp [default]

/-- C10, an instance of the amended claim: the status 999. -/
theorem http_build_header_no_reason_witness :
    response999.http_codes.find? response999.status = none ∧
    http_build_header response999 =
      (response999.proto ++ " ".toList ++ QString.number response999.status ++ " ".toList
        ++ crlf) ++ ((emittedLines response999).flatten ++ crlf) :=
  ⟨by decide, http_build_header_no_reason response999 (by decide)⟩

/-- C11, the code at the failing input: the only handler of `serverLoop`
calls its continuation 2147483648 times; `m_next` increments the `int` cursor
on every call, also past the end of the registry, the last increment is that
of a cursor holding `INT_MAX`, and the callback that serves the request
`textFoo` has no defined end and resets nothing. With the two handlers of
`serverTwo` the cursor is 0 after the request was served. In general: after a
sequence of events from the cursor 0, the cursor is 0 and the registry is the
same; a `readyRead` event that returns leaves the cursor at 0, and has either
returned early, writing nothing and running no handler, or run one dispatch
whose invocations are the handlers `0, 1, ..., m - 1` in this order; it does
return, with the cursor at 0, when the request is complete and the handlers
together call their continuations at most `INT_MAX` times; and whatever the
cursor is, an event that ends at the early return leaves it unchanged. -/
theorem cursor_reset :
    (INT_MAX < 2147483648 ∧ serverLoop.m_middleware = [nextTimes 2147483648] ∧
      readyReadInt (newConnection serverLoop 7) 7 textFoo = none) ∧
    (stepsInt serverTwo [Input.connect 7, Input.bytes 7 textFoo]).map
      (fun s => (s.current_middleware, invoked s.trace)) = some (0, [0, 1]) ∧
    (∀ (s : Server) (inputs : List Input) (s1 : Server), s.current_middleware = 0 →
      stepsInt s inputs = some s1 →
      s1.current_middleware = 0 ∧ s1.m_middleware = s.m_middleware ∧
      (∀ socket_id bytes s2, readyReadInt s1 socket_id bytes = some s2 →
        s2.current_middleware = 0 ∧
        ((s2.written = s1.written ∧ s2.trace = s1.trace) ∨
          ∃ t m, s2.trace = s1.trace ++ t ∧ invoked t = List.range m ∧
            (s1.m_middleware ≠ [] → 0 < m))) ∧
      (maxCallsFrom s.m_middleware 0 ≤ INT_MAX →
        ∀ socket_id bytes client request, s1.client? socket_id = some client →
          receive client.request bytes = some request → complete request = true →
          ∃ s2, readyReadInt s1 socket_id bytes = some s2 ∧ s2.current_middleware = 0)) ∧
    (∀ (s0 : Server) socket_id bytes client request, s0.client? socket_id = some client →
      receive client.request bytes = some request → complete request = false →
      ∃ s2, readyReadInt s0 socket_id bytes = some s2 ∧
        s2.current_middleware = s0.current_middleware) := by
  refine ⟨⟨by decide, rfl, readyReadInt_serverLoop⟩, by decide, ?_, ?_⟩
  · intro s inputs s1 h0 hrun
    obtain ⟨hc1, hm1⟩ := stepsInt_cursor inputs s s1 hrun h0
    refine ⟨hc1, hm1, ?_, ?_⟩
    · intro socket_id bytes s2 h
      obtain ⟨client, request, _, _, hcase⟩ := readyReadInt_some s1 socket_id bytes s2 h
      rcases hcase with ⟨_, rfl⟩ | ⟨_, resp, data, tr, hresp, rfl⟩
      · exact ⟨hc1, Or.inl ⟨rfl, rfl⟩⟩
      · rw [hc1] at hresp
        obtain ⟨m, _, e2, e3⟩ := respond_trace _ _ _ _ _ (respondInt_sub _ _ _ _ hresp)
        exact ⟨rfl, Or.inr ⟨tr, m, rfl, e2, e3⟩⟩
    · intro hb socket_id bytes client request hc hr hcomplete
      exact readyReadInt_complete s1 socket_id bytes client request hc hr hcomplete hc1
        (by rw [hm1]; exact hb)
  · intro s0 socket_id bytes client request hc hr hi
    exact ⟨_, readyReadInt_incomplete s0 socket_id bytes client request hc hr hi, rfl⟩

/-- C13, the code at the failing input: a handler sets the body to the single
character U+00E9 and the request `textFoo` is served; the payload is the
built header followed by the body, 65 characters whose encoding has 66
bytes, and the bytes handed to the socket are the first 65 of them, not the
whole payload. In general: when the status code has the reason phrase `r` in
the table, the text built by `http_build_header` is the status line
`<proto> SP <status> SP <r> CRLF`, then the lines `name: value CRLF` of the
written fields, then one `CRLF`; the payload `response_data` of a
`readyRead` event is the text built for the final response followed by the
body of this response; and the bytes handed to the socket are its whole
encoding when the payload holds ASCII characters only. -/
theorem http_build_header_format :
    (readyReadInt (newConnection serverAccent 7) 7 textFoo).map
      (fun s => s.written.map (fun e =>
        (e.2, decide (socketWrite e.2 = QString.toStdString e.2),
          (socketWrite e.2).length, (QString.toStdString e.2).length))) =
      some [("HTTP/1.1 200 OK\r\ncontent-length: 1\r\ncontent-type: text/plain\r\n\r\n\u00e9".toList,
        false, 65, 66)] ∧
    (∀ (response : Response) (r : QString),
      response.http_codes.find? response.status = some r →
      http_build_header response =
        (response.proto ++ " ".toList ++ QString.number response.status ++ " ".toList ++ r
            ++ crlf) ++
          (((emittedFields response).map
              (fun f => f.1 ++ (": ".toList ++ (f.2 ++ crlf)))).flatten ++ crlf)) ∧
    (∀ (s : Server) (socket_id : Int) (bytes : QString) (s1 : Server),
      readyReadInt s socket_id bytes = some s1 →
      s1.written = s.written ∨
      ∃ client final tr,
        respondInt s.m_middleware s.current_middleware client =
          some (final, http_build_header final ++ final.body, tr) ∧
        s1.written = s.written ++ [(socket_id, http_build_header final ++ final.body)]) ∧
    (∀ response_data : QString, (∀ c ∈ response_data, c.toNat < 128) →
      socketWrite response_data = QString.toStdString response_data) := by
  refine ⟨by decide, ?_, ?_, ?_⟩
  · intro response r h
    rw [http_build_header_eq, statusLine, QHash.value, h]
    rfl
  · intro s socket_id bytes s1 hs
    obtain ⟨client, request, _, _, hcase⟩ := readyReadInt_some s socket_id bytes s1 hs
    rcases hcase with ⟨_, rfl⟩ | ⟨_, resp, data, tr, hresp, rfl⟩
    · exact Or.inl rfl
    · right
      obtain ⟨_, _, _, hd, _⟩ := respondInt_some _ _ _ _ _ _ hresp
      subst hd
      exact ⟨_, resp, tr, hresp, rfl⟩
  · intro response_data h
    rw [socketWrite, size_eq_length_toStdString response_data h, List.take_length]

/-- C14: a call of `http_build_header` leaves the response as it is (every
field, since the response itself is unchanged), the text it returns is a
function of the response, and a second call on the response after the first
returns the same text. -/
theorem http_build_header_pure (response : Response) :
    (http_build_header_call response).1 = response ∧
    (http_build_header_call response).2 = http_build_header response ∧
    (http_build_header_call (http_build_header_call response).1).2 =
      (http_build_header_call response).2 := by
  rw [http_build_header_call_eq]
  exact ⟨rfl, rfl, by rw [http_build_header_call_eq]⟩

/-- C15, the claim as stated fails: connection 7 has sent a request line with
`Content-Length: 5` and no blank line, its request is not complete; after the
peer-closed event its record is still in the connection map. -/
theorem peerClosed_record_stays :
    (serverWaiting.client? 7).map (fun c => complete c.request) = some false ∧
    (step serverWaiting (Input.closed 7)).map (fun s => (s.client? 7).isSome) = some true := by
  decide

/-- C15, as amended: a peer-closed event runs no code of the class: the
connection map, with the record of the connection and its buffered request,
and the records of the other connections, stays as it is, nothing is written
and no handler runs. -/
theorem peerClosed_nothing (s : Server) (socket_id : Int) :
    ∃ s', step s (Input.closed socket_id) = some s' ∧
      s'.connections = s.connections ∧ s'.written = s.written ∧ s'.trace = s.trace ∧
      s'.current_middleware = s.current_middleware ∧
      ∀ other, s'.client? other = s.client? other :=
  ⟨s, rfl, rfl, rfl, rfl, rfl, fun _ => rfl⟩

/-- C16, the code at the failing input: the text `textShort` passes the
request-line check and its only line after the first empty line is `body`,
but `http_parse` does not return: line 0, `G`, holds no space and
`first_line.at(1)` is out of range. The text `textLines` gives the body
`abcdef` and the `body_length` 2 + 5 + 6 = 13. On every text that passes the
check and in which each line before the first empty line holds a colon, or is
line 0 and holds two spaces, `http_parse` returns with the body and the
`body_length` of the claim. -/
theorem http_parse_body_length :
    (httpRx textShort = true ∧
      linesAfter (QString.split crlf textShort) = ["body".toList] ∧
      (http_parse { Request.fresh with data := textShort }).isSome = false) ∧
    (httpRx textLines = true ∧
      linesAfter (QString.split crlf textLines) = ["ab".toList, "cde".toList, "f".toList] ∧
      (http_parse { Request.fresh with data := textLines }).map
        (fun r => (r.body, r.body_length)) = some ("abcdef".toList, 13)) ∧
    (∀ data : QString, httpRx data = true →
      (∀ j line, (linesBefore (QString.split crlf data))[j]? = some line →
        ':' ∈ line ∨ (j = 0 ∧ 2 ≤ line.count ' ')) →
      ∃ r1, http_parse { Request.fresh with data := data } = some r1 ∧
        r1.body = (linesAfter (QString.split crlf data)).flatten ∧
        r1.body_length = prefixSizes (linesAfter (QString.split crlf data)) ∧
        r1.body_length = weightedSizes (linesAfter (QString.split crlf data))) :=
  ⟨by decide, by decide, http_parse_body_sum⟩

/-- C17, the code at the failing input: a registry whose only handler calls
its continuation 2147483648 times; `m_next` increments the `int` cursor on
every call, also past the end of the registry, and the last call increments a
cursor that holds `INT_MAX`: the dispatch has no defined result. With the two
handlers of `serverTwo`, the first calling twice, the handlers invoked are 0
and 1. In general, for a registry of `n` handlers that together call their
continuations at most `INT_MAX` times, one dispatch returns; the handlers it
invokes are `0, 1, ..., m - 1` for some `m` that is at most `n`, in this
order: their indices increase strictly, no handler is invoked twice, and there
are at most `n` invocations. -/
theorem dispatch_order :
    (INT_MAX < 2147483648 ∧ dispatchInt [nextTimes 2147483648] 0 exchangeHello = none) ∧
    (dispatchInt [next_f.next (.next .ret), .ret] 0 exchangeHello).map
      (fun run => invoked run.trace) = some [0, 1] ∧
    (∀ (m_middleware : List next_f) (x : Exchange), maxCallsFrom m_middleware 0 ≤ INT_MAX →
      ∃ run, dispatchInt m_middleware 0 x = some run ∧
        (∃ m, m ≤ m_middleware.length ∧ invoked run.trace = List.range m) ∧
        (invoked run.trace).Pairwise (fun i j => i < j) ∧
        (invoked run.trace).Nodup ∧
        (invoked run.trace).length ≤ m_middleware.length) := by
  refine ⟨⟨by decide, dispatchInt_nextTimes _ _ (by decide)⟩, by decide, ?_⟩
  intro m_middleware x hb
  obtain ⟨run, m, e1, e2, e3, _⟩ := dispatch_invoked m_middleware x
  refine ⟨run, by rw [dispatchInt_eq _ _ hb]; exact e1, ⟨m, e2, e3⟩, ?_, ?_, ?_⟩
  · rw [e3]
    exact List.pairwise_lt_range m
  · rw [e3]
    exact List.nodup_range m
  · rw [e3, List.length_range]
    exact e2

/-- C18, the code at the failing input: a handler sets the body to the single
character U+00E9 and the request `textFoo` is served; the payload has 65
characters and its encoding 66 bytes, and the 65 bytes handed to the socket
are the encoding without its last byte. -/
theorem socketWrite_cuts_body :
    (readyRead (newConnection serverAccent 7) 7 textFoo).map
      (fun s => s.written.map (fun e =>
        (QString.size e.2, (QString.toStdString e.2).length, (socketWrite e.2).length,
          decide (socketWrite e.2 = (QString.toStdString e.2).dropLast)))) =
      some [(65, 66, 65, true)] := by
  decide

/-- C19, the code at the failing inputs: both texts pass the request-line
check; in the first a header line holds no colon and `entity_item.at(1)` is
out of range, in the second line 0 holds no space and `first_line.at(1)` is
out of range. -/
theorem http_parse_out_of_range :
    httpRx "GET / HTTP/1.1\r\nfoo\r\n\r\n".toList = true ∧
    (http_parse { Request.fresh with data := "GET / HTTP/1.1\r\nfoo\r\n\r\n".toList }).isSome
      = false ∧
    httpRx "G\r\nX /a HTTP/1.1\r\n".toList = true ∧
    (http_parse { Request.fresh with data := "G\r\nX /a HTTP/1.1\r\n".toList }).isSome
      = false := by
  decide

/-- C20, the code at the failing inputs: parsed once, the text `textHello`
gives the body `hello`; parsed a second time with the text unchanged the body
is `hellohello`; and fed in the two chunks that cut it after `hel` the body is
`helhello`. -/
theorem http_parse_appends_again :
    (feedParse Request.fresh [textHello]).map (fun r => r.body) = some "hello".toList ∧
    ((feedParse Request.fresh [textHello]).bind http_parse).map (fun r => r.body) =
      some "hellohello".toList ∧
    textHello = "POST /x HTTP/1.1\r\ncontent-length: 5\r\n\r\nhel".toList ++ "lo".toList ∧
    (feedParse Request.fresh
      ["POST /x HTTP/1.1\r\ncontent-length: 5\r\n\r\nhel".toList, "lo".toList]).map
        (fun r => r.body) = some "helhello".toList := by
  decide

end Recurse
